import Mathlib

/-!
Verification development for the periodic-geometry / RPDF engine of the
`pwtools` repository (`src/crys.py`).

Modelling conventions (shallow embedding):

* Machine floats are modelled by exact rationals (`ℚ`) wherever the source only
  adds, subtracts, multiplies, divides and compares; quantities whose source
  definition involves `sqrt` (Euclidean distances, the Smith radius) are
  carried as their *squares*, and every comparison the source performs on such
  a quantity is performed here on the square against the squared threshold.
  Since all quantities involved are nonnegative and `sqrt` is strictly
  monotone, this is an order-isomorphic, behaviour-preserving translation.
* Quantities whose source definition irreducibly involves `π` or trigonometry
  (the shell volumes of the RPDF normalization, `cc2cell`/`cell2cc`) are
  modelled over `ℝ`.
* numpy arrays of shape (n,3) become `List (Vec3 ℚ)`; (3,3) cell matrices
  become `Mat3` with the basis vectors as rows, exactly as in the source.
-/

/-- A 3-vector, modelling one row of a numpy `(...,3)` array. -/
structure Vec3 (α : Type) where
  x : α
  y : α
  z : α
  deriving DecidableEq, Repr

/-- A 3×3 cell matrix; the rows `r0,r1,r2` are the basis vectors `a,b,c`,
as everywhere in `crys.py` ("The cell vecs must be the rows of `cell`"). -/
structure Mat3 (α : Type) where
  r0 : Vec3 α
  r1 : Vec3 α
  r2 : Vec3 α
  deriving DecidableEq, Repr

namespace Vec3

/-- Componentwise subtraction, modelling numpy broadcasting `-` on `(...,3)`. -/
def sub {α : Type} [Field α] (u v : Vec3 α) : Vec3 α :=
  ⟨u.x - v.x, u.y - v.y, u.z - v.z⟩

/-- `np.dot` on two 3-vectors. -/
def dot {α : Type} [Field α] (u v : Vec3 α) : α :=
  u.x * v.x + u.y * v.y + u.z * v.z

/-- `np.cross` on two 3-vectors. -/
def cross {α : Type} [Field α] (u v : Vec3 α) : Vec3 α :=
  ⟨u.y * v.z - u.z * v.y, u.z * v.x - u.x * v.z, u.x * v.y - u.y * v.x⟩

/-- Squared 2-norm.  The source function `norm(a) = sqrt(np.dot(a,a))`; we
carry the square (see file header). -/
def normSq {α : Type} [Field α] (v : Vec3 α) : α :=
  v.x * v.x + v.y * v.y + v.z * v.z

end Vec3

/-- Row-vector times matrix, modelling `np.dot(sij, cell)` for one row `sij`
of the fractional-displacement tensor: `rij_k = Σ_m sij_m * cell[m,k]`. -/
def rowMulMat {α : Type} [Field α] (s : Vec3 α) (c : Mat3 α) : Vec3 α :=
  ⟨s.x * c.r0.x + s.y * c.r1.x + s.z * c.r2.x,
   s.x * c.r0.y + s.y * c.r1.y + s.z * c.r2.y,
   s.x * c.r0.z + s.y * c.r1.z + s.z * c.r2.z⟩

/-- `np.linalg.det` of the 3×3 cell (triple product of the rows). -/
def det3 {α : Type} [Field α] (c : Mat3 α) : α :=
  Vec3.dot c.r0 (Vec3.cross c.r1 c.r2)

/-- `volume_cell(cell) = abs(np.linalg.det(cell))` from `crys.py`. -/
def volume_cell (c : Mat3 ℚ) : ℚ :=
  |det3 c|

/-- The *square* of `rmax_smith(cell)` from `crys.py`:
`rmax = 0.5*min(wa,wb,wc)` with `wa = abs(np.dot(a, bxc)) / norm(bxc)` etc.
Squaring: `wa² = (a·(b×c))² / ‖b×c‖²` is rational, and since all three widths
are nonnegative, `min` commutes with squaring, so
`rmaxSmithSq = (1/4) * min(wa²,wb²,wc²) = rmax_smith²`. -/
def rmaxSmithSq (c : Mat3 ℚ) : ℚ :=
  let a := c.r0
  let b := c.r1
  let cc := c.r2
  let bxc := Vec3.cross b cc
  let cxa := Vec3.cross cc a
  let axb := Vec3.cross a b
  let waSq := (Vec3.dot a bxc) ^ 2 / Vec3.normSq bxc
  let wbSq := (Vec3.dot b cxa) ^ 2 / Vec3.normSq cxa
  let wcSq := (Vec3.dot cc axb) ^ 2 / Vec3.normSq axb
  (1 / 4) * min (min waSq wbSq) wcSq

/-! ## Minimum image convention (`min_image_convention` in `crys.py`)

The source applies, componentwise on a tensor of fractional-coordinate
differences, the loop "subtract 1.0 while the component is ≥ 0.5", followed by
the loop "add 1.0 while the component is < -0.5".  We model the scalar
operation; the tensor version is the componentwise map. -/

/-- First loop of `min_image_convention`: subtract 1.0 while `x ≥ 0.5`. -/
def micDown (x : ℚ) : ℚ :=
  if h : (1 : ℚ) / 2 ≤ x then micDown (x - 1) else x
  termination_by (⌈x⌉).toNat
  decreasing_by
    have h1 : (0 : ℚ) < x := by linarith
    have h2 : 0 < ⌈x⌉ := Int.ceil_pos.mpr h1
    have h3 : ⌈x - 1⌉ = ⌈x⌉ - 1 := by
      simp
    omega

/-- Second loop of `min_image_convention`: add 1.0 while `x < -0.5`. -/
def micUp (x : ℚ) : ℚ :=
  if h : x < -(1 / 2) then micUp (x + 1) else x
  termination_by (⌈-x⌉).toNat
  decreasing_by
    have h1 : (0 : ℚ) < -x := by linarith
    have h2 : 0 < ⌈-x⌉ := Int.ceil_pos.mpr h1
    have h3 : ⌈-(x + 1)⌉ = ⌈-x⌉ - 1 := by
      have he : -(x + 1) = -x - 1 := by ring
      rw [he]
      simp
    omega

/-- Scalar `min_image_convention` of `crys.py`: both correction loops,
in the source's order. -/
def micQ (x : ℚ) : ℚ :=
  micUp (micDown x)

/-- Componentwise `min_image_convention` on one fractional difference vector
(the source operates on whole tensors via boolean masks; that is exactly the
componentwise scalar operation). -/
def mic3 (v : Vec3 ℚ) : Vec3 ℚ :=
  ⟨micQ v.x, micQ v.y, micQ v.z⟩

theorem micDown_spec (x : ℚ) :
    micDown x < 1 / 2 ∧ Int.fract (micDown x + 1 / 2) = Int.fract (x + 1 / 2) := by
  have key : ∀ n : ℕ, ∀ x : ℚ, (⌈x⌉).toNat ≤ n →
      micDown x < 1 / 2 ∧ Int.fract (micDown x + 1 / 2) = Int.fract (x + 1 / 2) := by
    intro n
    induction n with
    | zero =>
        intro x hx
        rw [micDown]
        split
        · rename_i h
          exfalso
          have h1 : (0 : ℚ) < x := by linarith
          have h2 := Int.ceil_pos.mpr h1
          omega
        · rename_i h
          exact ⟨by linarith [not_le.mp h], rfl⟩
    | succ n ih =>
        intro x hx
        rw [micDown]
        split
        · rename_i h
          have h1 : (0 : ℚ) < x := by linarith
          have h2 := Int.ceil_pos.mpr h1
          have h3 : ⌈x - 1⌉ = ⌈x⌉ - 1 := by simp
          have hrec := ih (x - 1) (by omega)
          refine ⟨hrec.1, ?_⟩
          rw [hrec.2]
          have he : x - 1 + 1 / 2 = x + 1 / 2 - ((1 : ℤ) : ℚ) := by push_cast; ring
          rw [he, Int.fract_sub_int]
        · rename_i h
          exact ⟨by linarith [not_le.mp h], rfl⟩
  exact key (⌈x⌉).toNat x le_rfl

theorem micUp_spec (x : ℚ) :
    -(1 / 2) ≤ micUp x ∧ (x < 1 / 2 → micUp x < 1 / 2) ∧
      Int.fract (micUp x + 1 / 2) = Int.fract (x + 1 / 2) := by
  have key : ∀ n : ℕ, ∀ x : ℚ, (⌈-x⌉).toNat ≤ n →
      -(1 / 2) ≤ micUp x ∧ (x < 1 / 2 → micUp x < 1 / 2) ∧
        Int.fract (micUp x + 1 / 2) = Int.fract (x + 1 / 2) := by
    intro n
    induction n with
    | zero =>
        intro x hx
        rw [micUp]
        split
        · rename_i h
          exfalso
          have h1 : (0 : ℚ) < -x := by linarith
          have h2 := Int.ceil_pos.mpr h1
          omega
        · rename_i h
          exact ⟨by linarith [not_lt.mp h], fun hlt => hlt, rfl⟩
    | succ n ih =>
        intro x hx
        rw [micUp]
        split
        · rename_i h
          have h1 : (0 : ℚ) < -x := by linarith
          have h2 := Int.ceil_pos.mpr h1
          have h3 : ⌈-(x + 1)⌉ = ⌈-x⌉ - 1 := by
            have he : -(x + 1) = -x - 1 := by ring
            rw [he]
            simp
          have hrec := ih (x + 1) (by omega)
          refine ⟨hrec.1, fun _ => hrec.2.1 (by linarith), ?_⟩
          rw [hrec.2.2]
          have he : x + 1 + 1 / 2 = x + 1 / 2 + ((1 : ℤ) : ℚ) := by push_cast; ring
          rw [he, Int.fract_add_int]
        · rename_i h
          exact ⟨by linarith [not_lt.mp h], fun hlt => hlt, rfl⟩
  exact key (⌈-x⌉).toNat x le_rfl

theorem micQ_mem (x : ℚ) : -(1 / 2) ≤ micQ x ∧ micQ x < 1 / 2 :=
  ⟨(micUp_spec _).1, (micUp_spec _).2.1 (micDown_spec x).1⟩

/-- The loop-until-stable correction equals the closed form
`((x + 0.5) mod 1.0) - 0.5` (numpy's `mod` on floats is `x - floor(x)`,
i.e. `Int.fract`). -/
theorem micQ_closed_form (x : ℚ) : micQ x = Int.fract (x + 1 / 2) - 1 / 2 := by
  have hmem := micQ_mem x
  have hfr : Int.fract (micQ x + 1 / 2) = Int.fract (x + 1 / 2) := by
    unfold micQ
    rw [(micUp_spec _).2.2, (micDown_spec _).2]
  have hself : Int.fract (micQ x + 1 / 2) = micQ x + 1 / 2 := by
    apply Int.fract_eq_self.mpr
    constructor <;> [linarith [hmem.1]; linarith [hmem.2]]
  linarith [hfr ▸ hself]

theorem micQ_idem (x : ℚ) : micQ (micQ x) = micQ x := by
  have hmem := micQ_mem x
  rw [micQ_closed_form (micQ x)]
  have : Int.fract (micQ x + 1 / 2) = micQ x + 1 / 2 :=
    Int.fract_eq_self.mpr ⟨by linarith [hmem.1], by linarith [hmem.2]⟩
  rw [this]
  ring

theorem micQ_zero : micQ 0 = 0 := by
  have := micQ_closed_form 0
  rw [this]
  norm_num [Int.fract]

/-- C3: For every fractional coordinate difference of arbitrary magnitude, the
minimum-image-convention operation leaves the value in `[-0.5, 0.5)`, equals
the closed form `((x + 0.5) mod 1.0) - 0.5`, and is idempotent; componentwise
this transfers to whole difference vectors. -/
theorem C3_min_image_convention :
    (∀ x : ℚ, micQ x = Int.fract (x + 1 / 2) - 1 / 2 ∧
      -(1 / 2) ≤ micQ x ∧ micQ x < 1 / 2 ∧ micQ (micQ x) = micQ x) ∧
    (∀ v : Vec3 ℚ, mic3 (mic3 v) = mic3 v) := by
  refine ⟨fun x => ⟨micQ_closed_form x, (micQ_mem x).1, (micQ_mem x).2, micQ_idem x⟩, ?_⟩
  intro v
  simp [mic3, micQ_idem]

/-! ## Squared-threshold helpers for `⌈rmax/dr⌉` and `⌊d/dr⌋`

The source works with `rmax` and distances `d = sqrt(s)` directly; we carry
squares (`rmaxSq = rmax²`, `s = d²`).  `ceilSqrtQ q` computes `⌈sqrt q⌉` and
`floorSqrtQ q` computes `⌊sqrt q⌋` for `q ≥ 0`, so that bin counts and bin
indices can be computed exactly from the squares. -/

/-- `⌈sqrt q⌉` for a rational `q` (0 for `q ≤ 0`): the least `k : ℕ` with
`q ≤ k²`. -/
def ceilSqrtQ (q : ℚ) : ℕ :=
  if q ≤ 0 then 0 else Nat.sqrt ((⌈q⌉).toNat - 1) + 1

/-- `⌊sqrt q⌋` for a rational `q` (0 for `q < 0`): the greatest `k : ℕ` with
`k² ≤ q`. -/
def floorSqrtQ (q : ℚ) : ℕ :=
  Nat.sqrt ((⌊q⌋).toNat)

theorem ceilSqrtQ_le_sq (q : ℚ) : q ≤ (ceilSqrtQ q : ℚ) ^ 2 := by
  unfold ceilSqrtQ
  split
  · rename_i h
    simpa using h.trans (by positivity)
  · rename_i h
    push_neg at h
    set n := (⌈q⌉).toNat with hn
    have h1 : 0 < ⌈q⌉ := Int.ceil_pos.mpr h
    have h2 : (q : ℚ) ≤ (n : ℚ) := by
      have hc : ((n : ℤ) : ℚ) = (n : ℚ) := by push_cast; ring
      have ht : (⌈q⌉ : ℤ) = (n : ℤ) := (Int.toNat_of_nonneg h1.le).symm
      calc q ≤ ((⌈q⌉ : ℤ) : ℚ) := Int.le_ceil q
        _ = (n : ℚ) := by rw [ht, hc]
    have h3 : n - 1 < (Nat.sqrt (n - 1) + 1) ^ 2 := by
      have hs := Nat.lt_succ_sqrt (n - 1)
      rw [Nat.succ_eq_add_one] at hs
      calc n - 1 < (Nat.sqrt (n-1) + 1) * (Nat.sqrt (n-1) + 1) := hs
        _ = (Nat.sqrt (n - 1) + 1) ^ 2 := by ring
    have h4 : n ≤ (Nat.sqrt (n - 1) + 1) ^ 2 := by omega
    calc q ≤ (n : ℚ) := h2
      _ ≤ ((Nat.sqrt (n - 1) + 1 : ℕ) : ℚ) ^ 2 := by exact_mod_cast Nat.cast_le.mpr h4

theorem ceilSqrtQ_min (q : ℚ) (hq : 0 < q) :
    ((ceilSqrtQ q - 1 : ℕ) : ℚ) ^ 2 < q := by
  unfold ceilSqrtQ
  rw [if_neg (by linarith)]
  set n := (⌈q⌉).toNat with hn
  have h1 : 0 < ⌈q⌉ := Int.ceil_pos.mpr hq
  have hnq : ((n : ℚ)) - 1 < q := by
    have ht : (⌈q⌉ : ℤ) = (n : ℤ) := (Int.toNat_of_nonneg h1.le).symm
    have hc := Int.ceil_lt_add_one q
    rw [ht] at hc
    push_cast at hc
    linarith
  have h2 : (Nat.sqrt (n - 1)) ^ 2 ≤ n - 1 := by
    calc (Nat.sqrt (n-1)) ^ 2 = Nat.sqrt (n-1) * Nat.sqrt (n-1) := by ring
      _ ≤ n - 1 := Nat.sqrt_le (n - 1)
  have h3 : 0 < n := by omega
  have h4 : ((Nat.sqrt (n - 1) : ℚ)) ^ 2 ≤ (n : ℚ) - 1 := by
    have : ((Nat.sqrt (n-1) ^ 2 : ℕ) : ℚ) ≤ ((n - 1 : ℕ) : ℚ) := by
      exact_mod_cast Nat.cast_le.mpr h2
    push_cast at this
    rw [Nat.cast_sub h3] at this
    · push_cast at this; linarith
  calc ((Nat.sqrt (n-1) + 1 - 1 : ℕ) : ℚ) ^ 2 = ((Nat.sqrt (n-1) : ℕ) : ℚ) ^ 2 := by
        norm_num
    _ ≤ (n : ℚ) - 1 := h4
    _ < q := hnq

theorem floorSqrtQ_le (q : ℚ) (hq : 0 ≤ q) : ((floorSqrtQ q : ℚ)) ^ 2 ≤ q := by
  unfold floorSqrtQ
  set m := (⌊q⌋).toNat with hm
  have h0 : 0 ≤ ⌊q⌋ := Int.floor_nonneg.mpr hq
  have h1 : (m : ℚ) ≤ q := by
    have ht : (⌊q⌋ : ℤ) = (m : ℤ) := (Int.toNat_of_nonneg h0).symm
    have := Int.floor_le q
    rw [ht] at this
    exact_mod_cast this
  have h2 : Nat.sqrt m ^ 2 ≤ m := by
    calc Nat.sqrt m ^ 2 = Nat.sqrt m * Nat.sqrt m := by ring
      _ ≤ m := Nat.sqrt_le m
  calc ((Nat.sqrt m : ℚ)) ^ 2 = ((Nat.sqrt m ^ 2 : ℕ) : ℚ) := by push_cast; ring
    _ ≤ (m : ℚ) := by exact_mod_cast Nat.cast_le.mpr h2
    _ ≤ q := h1

theorem lt_floorSqrtQ_succ (q : ℚ) (hq : 0 ≤ q) :
    q < ((floorSqrtQ q : ℚ) + 1) ^ 2 := by
  unfold floorSqrtQ
  set m := (⌊q⌋).toNat with hm
  have h0 : 0 ≤ ⌊q⌋ := Int.floor_nonneg.mpr hq
  have h1 : q < (m : ℚ) + 1 := by
    have ht : (⌊q⌋ : ℤ) = (m : ℤ) := (Int.toNat_of_nonneg h0).symm
    have := Int.lt_floor_add_one q
    rw [ht] at this
    exact_mod_cast this
  have h2 : m < (Nat.sqrt m + 1) ^ 2 := by
    have hs := Nat.lt_succ_sqrt m
    rw [Nat.succ_eq_add_one] at hs
    calc m < (Nat.sqrt m + 1) * (Nat.sqrt m + 1) := hs
      _ = (Nat.sqrt m + 1) ^ 2 := by ring
  have h3 : (m : ℚ) + 1 ≤ ((Nat.sqrt m : ℚ) + 1) ^ 2 := by
    have h2' : m + 1 ≤ (Nat.sqrt m + 1) ^ 2 := Nat.succ_le_of_lt h2
    have : ((m + 1 : ℕ) : ℚ) ≤ (((Nat.sqrt m + 1) ^ 2 : ℕ) : ℚ) := Nat.cast_le.mpr h2'
    push_cast at this
    linarith
  linarith

theorem le_floorSqrtQ_iff (q : ℚ) (hq : 0 ≤ q) (k : ℕ) :
    (k : ℚ) ^ 2 ≤ q ↔ k ≤ floorSqrtQ q := by
  constructor
  · intro h
    by_contra hc
    push_neg at hc
    have h1 : floorSqrtQ q + 1 ≤ k := hc
    have h2 : ((floorSqrtQ q : ℚ) + 1) ^ 2 ≤ (k : ℚ) ^ 2 := by
      have : ((floorSqrtQ q + 1 : ℕ) : ℚ) ≤ (k : ℚ) := by exact_mod_cast Nat.cast_le.mpr h1
      push_cast at this
      nlinarith [Nat.cast_nonneg (α := ℚ) (floorSqrtQ q)]
    linarith [lt_floorSqrtQ_succ q hq]
  · intro h
    have h2 : (k : ℚ) ≤ (floorSqrtQ q : ℚ) := by exact_mod_cast Nat.cast_le.mpr h
    calc (k : ℚ) ^ 2 ≤ ((floorSqrtQ q : ℚ)) ^ 2 := by nlinarith [Nat.cast_nonneg (α := ℚ) k]
      _ ≤ q := floorSqrtQ_le q hq

/-! ## RPDF engine (`rpdf` in `crys.py`)

We embed the computational core of `rpdf` after its input plumbing: the two
selections have already been resolved to per-time-step fractional coordinate
arrays `coords0, coords1` (the source's `clst[0], clst[1]`), the fixed cell is
`cell`, and `volume = volume_cell cell` (the source takes
`trajs[0].volume[0]`, which is `volume_cell` of the fixed cell).  The `dmask`
feature (an `eval`-based distance filter, default `None`) is modelled in its
default-off state.  All distances are carried as squares (file header):

* source `dists_all = sqrt(((np.dot(sij,cell))**2).sum(axis=2))`, here
  `distsSqStep` returns the list of squared distances of one time step, in the
  same row-major pair order as the reshaped `(natoms0*natoms1)` axis;
* source `dists_all[dists_all >= rmax] = 0.0`, here `zeroBig` maps
  `s ≥ rmax²` to `0`;
* source `np.histogram(dists, bins=np.arange(0, rmax+dr, dr))` puts `d` in bin
  `i` iff `i*dr ≤ d < (i+1)*dr` (right edge closed for the last bin), here
  `inBin` states exactly that on squares; the number of bins of
  `np.arange(0, rmax+dr, dr)` is `⌈rmax/dr⌉ = ceilSqrtQ (rmax²/dr²)`;
* source `if bins[0] == 0.0: hist[0] = 0.0` — `bins[0]` is always `0.0` here,
  so `histZStep` returns `0` for bin 0;
* source duplicate count `dists_all < 1e-15` becomes `s < (1e-15)² = 10⁻³⁰`.
-/

/-- Number of histogram bins: `len(np.arange(0, rmax+dr, dr)) - 1 = ⌈rmax/dr⌉`,
computed from the squares as `ceilSqrtQ (rmaxSq / dr²)`. -/
def nbins (dr rmaxSq : ℚ) : ℕ :=
  ceilSqrtQ (rmaxSq / dr ^ 2)

/-- Bin membership of `np.histogram` with edges `0, dr, 2*dr, ...`, stated on
the squared distance `s = d²`: `i*dr ≤ d < (i+1)*dr`, with the right edge
closed for the last bin (numpy's closed last edge). -/
def inBin (dr : ℚ) (nb i : ℕ) (s : ℚ) : Prop :=
  ((i : ℚ) * dr) ^ 2 ≤ s ∧
    (if i + 1 = nb then s ≤ (((i + 1 : ℕ) : ℚ) * dr) ^ 2
     else s < (((i + 1 : ℕ) : ℚ) * dr) ^ 2)

instance (dr : ℚ) (nb i : ℕ) (s : ℚ) : Decidable (inBin dr nb i s) := by
  unfold inBin
  infer_instance

/-- Squared cartesian distance of one atom pair:
`sij = a - b` (fractional), optionally `min_image_convention`, then
`rij = np.dot(sij, cell)` and the squared 2-norm. -/
def sqDist (pbc : Bool) (cell : Mat3 ℚ) (a b : Vec3 ℚ) : ℚ :=
  Vec3.normSq (rowMulMat (if pbc then mic3 (Vec3.sub a b) else Vec3.sub a b) cell)

/-- One time step of the source's distance tensor
`sij = clst[0][:,:,None,:] - clst[1][:,None,:,:]` reshaped to
`(natoms0*natoms1)`: row-major list of all squared pair distances. -/
def distsSqStep (pbc : Bool) (cell : Mat3 ℚ) (row0 row1 : List (Vec3 ℚ)) : List ℚ :=
  (row0.map (fun a => row1.map (fun b => sqDist pbc cell a b))).flatten

/-- All time steps of the squared-distance tensor (`dists_all` in the source). -/
def distsOf (pbc : Bool) (cell : Mat3 ℚ) (coords0 coords1 : List (List (Vec3 ℚ))) :
    List (List ℚ) :=
  (coords0.zip coords1).map (fun rc => distsSqStep pbc cell rc.1 rc.2)

/-- Per-step duplicate count, `len(np.nonzero(dists_all[idx] < 1e-15)[0])`
when `norm_vmd` is on, else the source's `np.zeros((nstep,))` entry `0`. -/
def dupsStep (normVmd : Bool) (l : List ℚ) : ℕ :=
  if normVmd then l.countP (fun s => decide (s < 1 / 10 ^ 30)) else 0

/-- `dists_all[dists_all >= rmax] = 0.0`, on squares. -/
def zeroBig (rmaxSq : ℚ) (l : List ℚ) : List ℚ :=
  l.map (fun s => if rmaxSq ≤ s then 0 else s)

/-- One step's histogram bin `i` after the source's two exclusion steps:
distances `≥ rmax` were set to `0.0` (`zeroBig`), and the first bin is zeroed
(`bins[0]` is always `0.0` for these edges, so the source's
`if bins[0] == 0.0: hist[0] = 0.0` always fires). -/
def histZStep (dr rmaxSq : ℚ) (nb : ℕ) (l : List ℚ) (i : ℕ) : ℕ :=
  if i = 0 then 0 else (zeroBig rmaxSq l).countP (fun s => decide (inBin dr nb i s))

/-- `tabulate n f = [f 0, f 1, ..., f (n-1)]`: builds the fixed-length arrays
of the output (the numpy arrays indexed by histogram bin). -/
def tabulate {α : Type} : ℕ → (ℕ → α) → List α
  | 0, _ => []
  | n + 1, f => f 0 :: tabulate n (fun i => f (i + 1))

theorem tabulate_length {α : Type} (n : ℕ) (f : ℕ → α) : (tabulate n f).length = n := by
  induction n generalizing f with
  | zero => rfl
  | succ n ih => simp [tabulate, ih]

theorem tabulate_getD {α : Type} (n : ℕ) (f : ℕ → α) (d : α) (i : ℕ) (h : i < n) :
    (tabulate n f).getD i d = f i := by
  induction n generalizing f i with
  | zero => omega
  | succ n ih =>
      cases i with
      | zero => rfl
      | succ i => simpa [tabulate] using ih (fun j => f (j + 1)) i (by omega)

/-- The per-step, per-bin histograms of a whole `rpdf` call (bin counts after
both exclusions), as lists of length `nb`. -/
def histsOf (dr rmaxSq : ℚ) (nb : ℕ) (dl : List (List ℚ)) : List (List ℕ) :=
  dl.map (fun l => tabulate nb (histZStep dr rmaxSq nb l))

/-- The `rmax` argument of `rpdf`: `'auto'` or a user-supplied float. -/
inductive RmaxArg where
  | auto : RmaxArg
  | given (r : ℚ) : RmaxArg
  deriving DecidableEq, Repr

/-- Resolution of the `rmax` argument (`if rmax == 'auto': rmax = rmax_auto`),
on squares: `auto` resolves to `rmax_smith(cell)²`. -/
def resolveRmaxSq (cell : Mat3 ℚ) : RmaxArg → ℚ
  | RmaxArg.auto => rmaxSmithSq cell
  | RmaxArg.given r => r ^ 2

/-- The result of `rpdf`: the source returns an `(len(rad), 3)` array whose
columns are `rad`, `hist` (g(r)) and `num_int`; we model it as three lists.
The g(r) column involves the shell volumes and hence `π`, so it lives in `ℝ`;
the other two columns are exact rationals. -/
structure Out where
  rad : List ℚ
  gr : List ℝ
  num_int : List ℚ

/-- Shell volume of bin `i`:
`volume_shells = 4/3*pi*(bins[1:]**3 - bins[:-1]**3)` with `bins[k] = k*dr`. -/
noncomputable def shellVol (dr : ℚ) (i : ℕ) : ℝ :=
  4 / 3 * Real.pi * ((((i + 1 : ℕ) : ℝ) * (dr : ℝ)) ^ 3 - (((i : ℕ) : ℝ) * (dr : ℝ)) ^ 3)

/-- Assembly of the output array from the per-step histograms and duplicate
counts; mirrors the source's accumulation loop:
`hist_sum += hist * (volume/volume_shells) / (natoms0*natoms1 - dups[idx])`,
`number_integral_sum += np.cumsum(hist)/natoms0`, and the final division of
both by `nstep`. -/
noncomputable def mkOut (vol dr : ℚ) (nb : ℕ) (hists : List (List ℕ))
    (dups : List ℕ) (n0 n1 : ℕ) : Out :=
  let nstep := hists.length
  { rad := tabulate nb (fun i => (i : ℚ) * dr + dr / 2)
    gr := tabulate nb (fun i =>
      (((hists.zip dups).map (fun hd =>
          (hd.1.getD i 0 : ℝ) * (((vol : ℚ) : ℝ) / shellVol dr i) /
            (((n0 * n1 : ℕ) : ℝ) - (hd.2 : ℝ)))).sum) / (nstep : ℝ))
    num_int := tabulate nb (fun i =>
      ((hists.map (fun h =>
          ((Finset.range (i + 1)).sum (fun j => (h.getD j 0 : ℚ))) / (n0 : ℚ))).sum) /
        (nstep : ℚ)) }

/-- The success path of `rpdf` (everything after the memory check). -/
noncomputable def rpdfOut (coords0 coords1 : List (List (Vec3 ℚ))) (cell : Mat3 ℚ)
    (dr : ℚ) (rmax : RmaxArg) (pbc normVmd : Bool) : Out :=
  let n0 := (coords0.headI).length
  let n1 := (coords1.headI).length
  let rq := resolveRmaxSq cell rmax
  let nb := nbins dr rq
  let dl := distsOf pbc cell coords0 coords1
  mkOut (volume_cell cell) dr nb (histsOf dr rq nb dl) (dl.map (dupsStep normVmd))
    n0 n1

/-- The failure the spec names `ResourceExceededError` (the source raises a
generic exception with the message "would use more than maxmem=... GB of
memory, try `tmask` to reduce time steps"). -/
inductive RpdfError where
  | resourceExceeded : RpdfError
  deriving DecidableEq, Repr

/-- `rpdf` with the memory admission check of the source:
`if nstep * natoms0 * natoms1 * 24.0 / 1e9 > maxmem: raise ...`; on success
the full output is computed, on failure nothing is returned. -/
noncomputable def rpdf (coords0 coords1 : List (List (Vec3 ℚ))) (cell : Mat3 ℚ)
    (dr : ℚ) (rmax : RmaxArg) (pbc normVmd : Bool) (maxmem : ℚ) :
    Except RpdfError Out :=
  let n0 := (coords0.headI).length
  let n1 := (coords1.headI).length
  if ((coords0.length * n0 * n1 * 24 : ℕ) : ℚ) / 10 ^ 9 > maxmem then
    Except.error RpdfError.resourceExceeded
  else
    Except.ok (rpdfOut coords0 coords1 cell dr rmax pbc normVmd)

/-! ## Nearest-neighbor query (`nearest_neighbors_from_dists` in `crys.py`)

We embed the default path `sort=True, fullout=False`, with `idx` always
supplied (the source's `assert idx != None` guards only against a missing
index).  `skip=None` becomes `none`; a symbol or list of symbols becomes
`some [...]` (the source's `common.asseq` plus the OR'ed symbol masks are a
membership test against that list).  Two failure shapes occur in the source:

* `assert None in [num, cutoff]` — an `AssertionError` when *both* `num` and
  `cutoff` are supplied (the spec's `InvalidArgumentError`);
* when *neither* is supplied, that assert passes (both are `None`) and the
  `num` branch then evaluates `np.s_[1:num+1]`, i.e. `None + 1`, which raises
  a `TypeError` — modelled as the distinct error `typeError`. -/

inductive NNError where
  | invalidArgument : NNError
  | typeError : NNError
  deriving DecidableEq, Repr

/-- `dist1d = dists[:,idx]`: the distance of atom `i` to the central atom
`idx` (rows of `dists` are indexed like `symbols`). -/
def dist1dF (dists : List (List ℚ)) (idx : ℕ) (i : ℕ) : ℚ :=
  (dists.getD i []).getD idx 0

/-- The species-exclusion mask `only_msk` of the source: `True` when atom `i`
is kept.  `skip=None` keeps everything; otherwise the source ORs the masks
`symbols_sort == skip[j]`, i.e. tests membership of the symbol in `skip`. -/
def keepF (symbols : List String) (skip : Option (List String)) (i : ℕ) : Bool :=
  match skip with
  | none => true
  | some l => !(l.contains (symbols.getD i ""))

/-- `idx_lst_sort = np.argsort(dist1d)`: the atom indices sorted by ascending
distance to the central atom.  (numpy's default quicksort leaves the order of
ties unspecified; we use a deterministic stable sort, and every concrete
instance below has distinct distances, where all correct sorts agree.) -/
def argsortD (dists : List (List ℚ)) (idx : ℕ) : List ℕ :=
  List.insertionSort (fun i j => dist1dF dists idx i ≤ dist1dF dists idx j)
    (List.range dists.length)

/-- `nearest_neighbors_from_dists` from `crys.py`, default path
(`sort=True, fullout=False`, `idx` supplied).  See the section header for the
two failure shapes. -/
def nearest_neighbors_from_dists (dists : List (List ℚ)) (symbols : List String)
    (idx : ℕ) (skip : Option (List String)) (cutoff : Option ℚ) (num : Option ℕ) :
    Except NNError (List ℕ) :=
  if num ≠ none ∧ cutoff ≠ none then Except.error NNError.invalidArgument
  else
    match cutoff with
    | none =>
        match num with
        | none => Except.error NNError.typeError
        | some k =>
            Except.ok ((((argsortD dists idx).filter (keepF symbols skip)).drop 1).take k)
    | some cut =>
        Except.ok ((argsortD dists idx).filter
          (fun i => (decide (0 < dist1dF dists idx i) && decide (dist1dF dists idx i < cut))
            && keepF symbols skip i))

/-- The selection C9 describes for the `num` branch: the first `num` entries
of the species-filtered, distance-sorted row *after excluding the central
atom's zero self-distance entry* (i.e. excluding index `idx` itself); the code
instead always drops the *first* entry of the filtered sorted list. -/
def specNumSelect (dists : List (List ℚ)) (symbols : List String)
    (idx : ℕ) (skip : Option (List String)) (k : ℕ) : List ℕ :=
  ((((argsortD dists idx).filter (keepF symbols skip)).filter (fun i => i ≠ idx)).take k)

/-- Projection of a successful nearest-neighbor result (`[]` on error). -/
def resNN (e : Except NNError (List ℕ)) : List ℕ :=
  e.toOption.getD []

/-! ## Cell ↔ crystallographic constants (`cc2cell` / `cell2cc` in `crys.py`) -/

/-- The six crystallographic constants `[a, b, c, alpha, beta, gamma]`
(lengths, and angles in degrees) of `crys.py`. -/
structure CrystConst where
  a : ℝ
  b : ℝ
  c : ℝ
  alpha : ℝ
  beta : ℝ
  gamma : ℝ

/-- `angle(x,y) = acos(np.dot(x,y)/norm(x)/norm(y))*180.0/pi` from `crys.py`. -/
noncomputable def angleDeg (x y : Vec3 ℝ) : ℝ :=
  Real.arccos (Vec3.dot x y / Real.sqrt (Vec3.normSq x) / Real.sqrt (Vec3.normSq y)) *
    180 / Real.pi

/-- `cc2cell(cryst_const)` from `crys.py`:
`va = [a,0,0]`, `vb = [b*cos(gamma), b*sin(gamma), 0]`,
`cx = c*cos(beta)`, `cy = c*(cos(alpha) - cos(beta)*cos(gamma))/sin(gamma)`,
`cz = sqrt(c² - cy² - cx²)`, angles converted from degrees. -/
noncomputable def cc2cell (cc : CrystConst) : Mat3 ℝ :=
  let alpha := cc.alpha * Real.pi / 180
  let beta := cc.beta * Real.pi / 180
  let gamma := cc.gamma * Real.pi / 180
  let cx := cc.c * Real.cos beta
  let cy := cc.c * (Real.cos alpha - Real.cos beta * Real.cos gamma) / Real.sin gamma
  let cz := Real.sqrt (cc.c ^ 2 - cy ^ 2 - cx ^ 2)
  { r0 := ⟨cc.a, 0, 0⟩
    r1 := ⟨cc.b * Real.cos gamma, cc.b * Real.sin gamma, 0⟩
    r2 := ⟨cx, cy, cz⟩ }

/-- `cell2cc(cell)` from `crys.py`: the lengths are the row norms
(`sqrt((cell**2).sum(axis=1))`), `alpha = angle(vb,vc)`,
`beta = angle(va,vc)`, `gamma = angle(va,vb)`. -/
noncomputable def cell2cc (m : Mat3 ℝ) : CrystConst :=
  { a := Real.sqrt (Vec3.normSq m.r0)
    b := Real.sqrt (Vec3.normSq m.r1)
    c := Real.sqrt (Vec3.normSq m.r2)
    alpha := angleDeg m.r1 m.r2
    beta := angleDeg m.r0 m.r2
    gamma := angleDeg m.r0 m.r1 }

/-! ## Claim theorems -/

/-- C6: Before allocating the displacement/distance tensor, `rpdf` estimates
the required memory as `nstep × n0 × n1 × (bytes per float) × (vector width)`
= `nstep*n0*n1*8*3` bytes; it fails with `ResourceExceededError` if and only
if this (in GB) exceeds the `maxmem` budget, and on failure nothing is
returned — otherwise it returns the full output. -/
theorem C6_resource_check
    (coords0 coords1 : List (List (Vec3 ℚ))) (cell : Mat3 ℚ) (dr : ℚ)
    (rmax : RmaxArg) (pbc normVmd : Bool) (maxmem : ℚ) :
    (rpdf coords0 coords1 cell dr rmax pbc normVmd maxmem =
        Except.error RpdfError.resourceExceeded ↔
      ((coords0.length * (coords0.headI).length * (coords1.headI).length * (8 * 3) : ℕ) : ℚ)
          / 10 ^ 9 > maxmem) ∧
    (¬ (((coords0.length * (coords0.headI).length * (coords1.headI).length * (8 * 3) : ℕ) : ℚ)
          / 10 ^ 9 > maxmem) →
      rpdf coords0 coords1 cell dr rmax pbc normVmd maxmem =
        Except.ok (rpdfOut coords0 coords1 cell dr rmax pbc normVmd)) := by
  have h83 : (8 * 3 : ℕ) = 24 := rfl
  rw [h83]
  constructor
  · simp only [rpdf]
    split_ifs with h
    · exact ⟨fun _ => h, fun _ => rfl⟩
    · exact ⟨fun hc => absurd hc (by simp), fun hc => absurd hc h⟩
  · intro h
    simp only [rpdf]
    rw [if_neg h]

/-- C6 witness: at a concrete one-atom input, `maxmem = 0` triggers the
resource failure (the estimate `24/10⁹ GB` exceeds `0`) and the default
`maxmem = 2` does not (the full output is returned). -/
theorem C6_resource_check_witness :
    rpdf [[⟨0, 0, 0⟩]] [[⟨1/20, 0, 0⟩]] ⟨⟨1, 0, 0⟩, ⟨0, 1, 0⟩, ⟨0, 0, 1⟩⟩
        (1/10) (RmaxArg.given (1/2)) false false 0 =
      Except.error RpdfError.resourceExceeded ∧
    rpdf [[⟨0, 0, 0⟩]] [[⟨1/20, 0, 0⟩]] ⟨⟨1, 0, 0⟩, ⟨0, 1, 0⟩, ⟨0, 0, 1⟩⟩
        (1/10) (RmaxArg.given (1/2)) false false 2 =
      Except.ok (rpdfOut [[⟨0, 0, 0⟩]] [[⟨1/20, 0, 0⟩]]
        ⟨⟨1, 0, 0⟩, ⟨0, 1, 0⟩, ⟨0, 0, 1⟩⟩ (1/10) (RmaxArg.given (1/2)) false false) := by
  constructor
  · exact (C6_resource_check [[⟨0, 0, 0⟩]] [[⟨1/20, 0, 0⟩]] _ (1/10)
      (RmaxArg.given (1/2)) false false 0).1.mpr (by norm_num)
  · exact (C6_resource_check [[⟨0, 0, 0⟩]] [[⟨1/20, 0, 0⟩]] _ (1/10)
      (RmaxArg.given (1/2)) false false 2).2 (by norm_num)

/-- C10: for every trajectory input and identical remaining parameters, the
number-integral column of the `rpdf` output is identical for
`norm_vmd=True` and `norm_vmd=False`: the duplicate count feeds only the
g(r) normalization, while the number integral is `cumsum(hist)/natoms0` on
the raw bin counts. -/
theorem C10_num_int_norm_vmd
    (coords0 coords1 : List (List (Vec3 ℚ))) (cell : Mat3 ℚ) (dr : ℚ)
    (rmax : RmaxArg) (pbc : Bool) (maxmem : ℚ) :
    (rpdfOut coords0 coords1 cell dr rmax pbc true).num_int =
      (rpdfOut coords0 coords1 cell dr rmax pbc false).num_int ∧
    (rpdf coords0 coords1 cell dr rmax pbc true maxmem).map Out.num_int =
      (rpdf coords0 coords1 cell dr rmax pbc false maxmem).map Out.num_int := by
  refine ⟨rfl, ?_⟩
  simp only [rpdf]
  split_ifs with h
  · rfl
  · rfl

/-- C4 (amended): the `rpdf` result consists of exactly the three equal-length
columns (radius bin centers, g(r), number integral); the Smith radius is
computed and used as the default `rmax` when `rmax='auto'`, but it is *not*
part of the returned value. -/
theorem C4_rmax_auto_amended
    (coords0 coords1 : List (List (Vec3 ℚ))) (cell : Mat3 ℚ) (dr : ℚ)
    (rmax : RmaxArg) (pbc normVmd : Bool) :
    resolveRmaxSq cell RmaxArg.auto = rmaxSmithSq cell ∧
    (rpdfOut coords0 coords1 cell dr rmax pbc normVmd).rad.length =
        nbins dr (resolveRmaxSq cell rmax) ∧
    (rpdfOut coords0 coords1 cell dr rmax pbc normVmd).gr.length =
        nbins dr (resolveRmaxSq cell rmax) ∧
    (rpdfOut coords0 coords1 cell dr rmax pbc normVmd).num_int.length =
        nbins dr (resolveRmaxSq cell rmax) := by
  refine ⟨rfl, ?_, ?_, ?_⟩ <;>
    simp [rpdfOut, mkOut, tabulate_length]

/-- C4 counterexample: the returned value does not include (nor determine) the
Smith radius `rmax_auto`: two inputs whose cells have different Smith radii
(cubic side 1 vs. orthorhombic 1/2 × 2 × 1, both of volume 1, atoms placed so
all pair distances coincide) produce *identical* `rpdf` outputs.  If the
result included `rmax_auto`, the outputs would differ. -/
theorem C4_counterexample :
    rpdfOut [[⟨0, 0, 0⟩, ⟨0, 3/20, 0⟩]] [[⟨0, 0, 0⟩, ⟨0, 3/20, 0⟩]]
        ⟨⟨1, 0, 0⟩, ⟨0, 1, 0⟩, ⟨0, 0, 1⟩⟩ (1/10) (RmaxArg.given (3/10)) false false =
      rpdfOut [[⟨0, 0, 0⟩, ⟨0, 3/40, 0⟩]] [[⟨0, 0, 0⟩, ⟨0, 3/40, 0⟩]]
        ⟨⟨1/2, 0, 0⟩, ⟨0, 2, 0⟩, ⟨0, 0, 1⟩⟩ (1/10) (RmaxArg.given (3/10)) false false ∧
    rmaxSmithSq ⟨⟨1, 0, 0⟩, ⟨0, 1, 0⟩, ⟨0, 0, 1⟩⟩ ≠
      rmaxSmithSq ⟨⟨1/2, 0, 0⟩, ⟨0, 2, 0⟩, ⟨0, 0, 1⟩⟩ := by
  constructor
  · have hdl1 : distsOf false ⟨⟨1, 0, 0⟩, ⟨0, 1, 0⟩, ⟨0, 0, 1⟩⟩
        [[⟨0, 0, 0⟩, ⟨0, 3/20, 0⟩]] [[⟨0, 0, 0⟩, ⟨0, 3/20, 0⟩]] =
        [[0, 9/400, 9/400, 0]] := by
      norm_num [distsOf, distsSqStep, sqDist, rowMulMat, Vec3.sub, Vec3.normSq]
    have hdl2 : distsOf false ⟨⟨1/2, 0, 0⟩, ⟨0, 2, 0⟩, ⟨0, 0, 1⟩⟩
        [[⟨0, 0, 0⟩, ⟨0, 3/40, 0⟩]] [[⟨0, 0, 0⟩, ⟨0, 3/40, 0⟩]] =
        [[0, 9/400, 9/400, 0]] := by
      norm_num [distsOf, distsSqStep, sqDist, rowMulMat, Vec3.sub, Vec3.normSq]
    have hv1 : volume_cell ⟨⟨1, 0, 0⟩, ⟨0, 1, 0⟩, ⟨0, 0, 1⟩⟩ = 1 := by
      norm_num [volume_cell, det3, Vec3.dot, Vec3.cross]
    have hv2 : volume_cell ⟨⟨1/2, 0, 0⟩, ⟨0, 2, 0⟩, ⟨0, 0, 1⟩⟩ = 1 := by
      norm_num [volume_cell, det3, Vec3.dot, Vec3.cross]
    simp only [rpdfOut, hdl1, hdl2, hv1, hv2, List.headI, List.length_cons,
      List.length_nil, resolveRmaxSq]
  · norm_num [rmaxSmithSq, Vec3.cross, Vec3.dot, Vec3.normSq]

/-- C8 (code bug): `nearest_neighbors_from_dists` rejects `num` and `cutoff`
*both* given with the argument-validation failure (the source's
`assert None in [num, cutoff]`, the spec's `InvalidArgumentError`), but when
*neither* is given that assert passes (`None in [None, None]` is true) and the
`num` branch crashes on `np.s_[1:None+1]` with a `TypeError` instead of the
claimed argument-validation failure. -/
theorem C8_num_cutoff_validation :
    nearest_neighbors_from_dists [[0, 1], [1, 0]] ["A", "B"] 0 none (some 1) (some 1) =
        Except.error NNError.invalidArgument ∧
    nearest_neighbors_from_dists [[0, 1], [1, 0]] ["A", "B"] 0 none none none =
        Except.error NNError.typeError ∧
    NNError.typeError ≠ NNError.invalidArgument := by
  refine ⟨?_, rfl, by simp⟩
  simp [nearest_neighbors_from_dists]

/-- C5 (amended): in the `rpdf` binning step, a distance is excluded from the
histogram iff it is exactly zero, `≥ rmax`, or falls in the *first bin*
`[0, dr)`: the source maps every distance `≥ rmax` to `0.0` and then zeroes
the whole first histogram bin (which therefore also drops nonzero distances
smaller than `dr`).  Every distance in `[dr, rmax)` is counted in its bin:
bin `i ≥ 1` holds exactly the distances of the raw list that lie in bin `i`
and below `rmax` (squared quantities throughout). -/
theorem C5_binning_amended (dr rq : ℚ) (hdr : 0 < dr) (nb : ℕ) (l : List ℚ)
    (i : ℕ) (hi : 1 ≤ i) :
    histZStep dr rq nb l 0 = 0 ∧
    histZStep dr rq nb l i =
      l.countP (fun s => decide (inBin dr nb i s ∧ s < rq)) := by
  refine ⟨rfl, ?_⟩
  unfold histZStep
  rw [if_neg (by omega)]
  unfold zeroBig
  rw [List.countP_map]
  apply List.countP_congr
  intro a _
  by_cases h : rq ≤ a
  · have hpos : 0 < ((i : ℚ) * dr) ^ 2 := by
      have hi' : (1 : ℚ) ≤ (i : ℚ) := by exact_mod_cast hi
      positivity
    simp only [Function.comp_apply, if_pos h]
    have h1 : ¬ inBin dr nb i 0 := by
      intro hc
      have := hc.1
      linarith
    have h2 : ¬ (inBin dr nb i a ∧ a < rq) := by
      rintro ⟨-, hc⟩
      linarith
    simp [h1, h2]
  · simp only [Function.comp_apply, if_neg h]
    have h2 : a < rq := not_le.mp h
    simp [h2]

/-- C5 witness for the amended statement: at a concrete RPDF setup
(`dr = 1/10`, `rmax = 1/2`, one pair at distance `3/20`), bin 0 is zero and
bin 1 counts exactly the raw distance lying in `[dr, 2*dr) ∩ [0, rmax)`. -/
theorem C5_binning_amended_witness :
    histZStep (1/10) ((1/2)^2) 5 [9/400] 0 = 0 ∧
    histZStep (1/10) ((1/2)^2) 5 [9/400] 1 =
      List.countP (fun s => decide (inBin (1/10) 5 1 s ∧ s < (1/2)^2)) [9/400] := by
  exact C5_binning_amended (1/10) ((1/2)^2) (by norm_num) 5 [9/400] 1 (by norm_num)

/-- C5 counterexample to the claim as stated: a nonzero distance smaller than
`dr` (here `1/20`, squared `1/400`, with `dr = 1/10`, `rmax = 1/2`) is a
pair distance of an actual `rpdf` call, is neither zero nor `≥ rmax`, yet
*no* histogram bin counts it — the total count over all bins is `0` while the
claim demands `1`. -/
theorem C5_counterexample :
    distsOf false ⟨⟨1, 0, 0⟩, ⟨0, 1, 0⟩, ⟨0, 0, 1⟩⟩ [[⟨0, 0, 0⟩]] [[⟨1/20, 0, 0⟩]] =
        [[1/400]] ∧
    List.countP (fun s => decide (0 < s ∧ s < (1/2)^2)) [(1/400 : ℚ)] = 1 ∧
    (Finset.range (nbins (1/10) ((1/2)^2))).sum
        (histZStep (1/10) ((1/2)^2) (nbins (1/10) ((1/2)^2)) [1/400]) = 0 := by
  refine ⟨?_, ?_, ?_⟩
  · norm_num [distsOf, distsSqStep, sqDist, rowMulMat, Vec3.sub, Vec3.normSq]
  · norm_num
  · have hnb : nbins (1/10) ((1/2)^2) = 5 := by
      norm_num [nbins, ceilSqrtQ, Int.toNat]
    rw [hnb]
    norm_num [Finset.sum_range_succ, histZStep, zeroBig, inBin]

/-- C2 (amended): each g(r) bin `i` of `rpdf` is
`Σ_t hist_t(i) · V / (shell_volume(i) · (n0·n1 − dups_t)) / nstep` with
`shell_volume(i) = (4/3)π[((i+1)dr)³ − (i·dr)³]`, `V` the fixed cell volume
and `dups_t` the duplicate count *of time step `t`* (the source normalizes
each step with its own duplicate count, not the first step's); with
`norm_vmd=False` every `dups_t` is `0` and the bin equals the claim's textbook
form `mean_hist(i) × V / (shell_volume(i) × n0 × n1)`. -/
theorem C2_normalization_amended
    (coords0 coords1 : List (List (Vec3 ℚ))) (cell : Mat3 ℚ) (dr : ℚ)
    (rmax : RmaxArg) (pbc normVmd : Bool) (i : ℕ)
    (hi : i < nbins dr (resolveRmaxSq cell rmax)) :
    (rpdfOut coords0 coords1 cell dr rmax pbc normVmd).gr.getD i 0 =
      (((histsOf dr (resolveRmaxSq cell rmax) (nbins dr (resolveRmaxSq cell rmax))
            (distsOf pbc cell coords0 coords1)).zip
          ((distsOf pbc cell coords0 coords1).map (dupsStep normVmd))).map
        (fun hd => (hd.1.getD i 0 : ℝ) * ((volume_cell cell : ℚ) : ℝ) /
          (shellVol dr i *
            ((((coords0.headI).length * (coords1.headI).length : ℕ) : ℝ) -
              (hd.2 : ℝ))))).sum /
        ((distsOf pbc cell coords0 coords1).length : ℝ) ∧
    (normVmd = false →
      (rpdfOut coords0 coords1 cell dr rmax pbc normVmd).gr.getD i 0 =
        ((histsOf dr (resolveRmaxSq cell rmax) (nbins dr (resolveRmaxSq cell rmax))
            (distsOf pbc cell coords0 coords1)).map (fun h => (h.getD i 0 : ℝ))).sum /
          ((distsOf pbc cell coords0 coords1).length : ℝ) *
          ((volume_cell cell : ℚ) : ℝ) /
          (shellVol dr i *
            (((coords0.headI).length : ℝ) * ((coords1.headI).length : ℝ)))) := by
  have hlen : (histsOf dr (resolveRmaxSq cell rmax) (nbins dr (resolveRmaxSq cell rmax))
      (distsOf pbc cell coords0 coords1)).length =
      (distsOf pbc cell coords0 coords1).length := by
    simp [histsOf]
  have hmain : (rpdfOut coords0 coords1 cell dr rmax pbc normVmd).gr.getD i 0 =
      (((histsOf dr (resolveRmaxSq cell rmax) (nbins dr (resolveRmaxSq cell rmax))
            (distsOf pbc cell coords0 coords1)).zip
          ((distsOf pbc cell coords0 coords1).map (dupsStep normVmd))).map
        (fun hd => (hd.1.getD i 0 : ℝ) * ((volume_cell cell : ℚ) : ℝ) /
          (shellVol dr i *
            ((((coords0.headI).length * (coords1.headI).length : ℕ) : ℝ) -
              (hd.2 : ℝ))))).sum /
        ((distsOf pbc cell coords0 coords1).length : ℝ) := by
    simp only [rpdfOut, mkOut]
    rw [tabulate_getD _ _ _ i hi, hlen]
    congr 1
    refine congrArg List.sum (List.map_congr_left ?_)
    intro hd _
    push_cast
    rw [← mul_div_assoc, div_div]
  refine ⟨hmain, fun hv => ?_⟩
  rw [hmain, hv]
  set H := histsOf dr (resolveRmaxSq cell rmax) (nbins dr (resolveRmaxSq cell rmax))
    (distsOf pbc cell coords0 coords1) with hH
  set D := (distsOf pbc cell coords0 coords1).map (dupsStep false) with hD
  have hz : ∀ p ∈ H.zip D, p.2 = 0 := by
    intro p hp
    have h2 := (List.of_mem_zip hp).2
    rw [hD] at h2
    simp only [List.mem_map] at h2
    obtain ⟨l, -, hl⟩ := h2
    simpa [dupsStep] using hl.symm
  have hstep1 : ((H.zip D).map
      (fun hd => (hd.1.getD i 0 : ℝ) * ((volume_cell cell : ℚ) : ℝ) /
        (shellVol dr i *
          ((((coords0.headI).length * (coords1.headI).length : ℕ) : ℝ) - (hd.2 : ℝ))))) =
      (H.zip D).map (fun hd => (hd.1.getD i 0 : ℝ) *
        (((volume_cell cell : ℚ) : ℝ) /
          (shellVol dr i * (((coords0.headI).length : ℝ) * ((coords1.headI).length : ℝ))))) := by
    apply List.map_congr_left
    intro p hp
    rw [hz p hp]
    push_cast
    ring
  rw [hstep1]
  have hfst : (H.zip D).map Prod.fst = H := by
    apply List.map_fst_zip
    rw [hH, hD]
    simp [histsOf]
  have hstep2 : (H.zip D).map (fun hd => (hd.1.getD i 0 : ℝ) *
      (((volume_cell cell : ℚ) : ℝ) /
        (shellVol dr i * (((coords0.headI).length : ℝ) * ((coords1.headI).length : ℝ))))) =
      H.map (fun h => (h.getD i 0 : ℝ) *
        (((volume_cell cell : ℚ) : ℝ) /
          (shellVol dr i * (((coords0.headI).length : ℝ) * ((coords1.headI).length : ℝ))))) := by
    conv_rhs => rw [← hfst]
    rw [List.map_map]
    rfl
  rw [hstep2, List.sum_map_mul_right]
  ring

/-- C2 witness: the amended normalization identity evaluated at a concrete
two-atom, one-step trajectory in the unit cubic cell, bin `i = 1`. -/
theorem C2_normalization_amended_witness :

    (rpdfOut ([[⟨0, 0, 0⟩, ⟨3/20, 0, 0⟩]] : List (List (Vec3 ℚ))) ([[⟨0, 0, 0⟩, ⟨3/20, 0, 0⟩]] : List (List (Vec3 ℚ))) (⟨⟨1, 0, 0⟩, ⟨0, 1, 0⟩, ⟨0, 0, 1⟩⟩ : Mat3 ℚ) ((1 : ℚ)/10) (RmaxArg.given (1/2)) false false).gr.getD 1 0 =
      (((histsOf ((1 : ℚ)/10) (resolveRmaxSq (⟨⟨1, 0, 0⟩, ⟨0, 1, 0⟩, ⟨0, 0, 1⟩⟩ : Mat3 ℚ) (RmaxArg.given (1/2))) (nbins ((1 : ℚ)/10) (resolveRmaxSq (⟨⟨1, 0, 0⟩, ⟨0, 1, 0⟩, ⟨0, 0, 1⟩⟩ : Mat3 ℚ) (RmaxArg.given (1/2))))
            (distsOf false (⟨⟨1, 0, 0⟩, ⟨0, 1, 0⟩, ⟨0, 0, 1⟩⟩ : Mat3 ℚ) ([[⟨0, 0, 0⟩, ⟨3/20, 0, 0⟩]] : List (List (Vec3 ℚ))) ([[⟨0, 0, 0⟩, ⟨3/20, 0, 0⟩]] : List (List (Vec3 ℚ))))).zip
          ((distsOf false (⟨⟨1, 0, 0⟩, ⟨0, 1, 0⟩, ⟨0, 0, 1⟩⟩ : Mat3 ℚ) ([[⟨0, 0, 0⟩, ⟨3/20, 0, 0⟩]] : List (List (Vec3 ℚ))) ([[⟨0, 0, 0⟩, ⟨3/20, 0, 0⟩]] : List (List (Vec3 ℚ)))).map (dupsStep false))).map
        (fun hd => (hd.1.getD 1 0 : ℝ) * ((volume_cell (⟨⟨1, 0, 0⟩, ⟨0, 1, 0⟩, ⟨0, 0, 1⟩⟩ : Mat3 ℚ) : ℚ) : ℝ) /
          (shellVol ((1 : ℚ)/10) 1 *
            ((((([[⟨0, 0, 0⟩, ⟨3/20, 0, 0⟩]] : List (List (Vec3 ℚ))).headI).length * (([[⟨0, 0, 0⟩, ⟨3/20, 0, 0⟩]] : List (List (Vec3 ℚ))).headI).length : ℕ) : ℝ) -
              (hd.2 : ℝ))))).sum /
        ((distsOf false (⟨⟨1, 0, 0⟩, ⟨0, 1, 0⟩, ⟨0, 0, 1⟩⟩ : Mat3 ℚ) ([[⟨0, 0, 0⟩, ⟨3/20, 0, 0⟩]] : List (List (Vec3 ℚ))) ([[⟨0, 0, 0⟩, ⟨3/20, 0, 0⟩]] : List (List (Vec3 ℚ)))).length : ℝ) ∧
    (false = false →
      (rpdfOut ([[⟨0, 0, 0⟩, ⟨3/20, 0, 0⟩]] : List (List (Vec3 ℚ))) ([[⟨0, 0, 0⟩, ⟨3/20, 0, 0⟩]] : List (List (Vec3 ℚ))) (⟨⟨1, 0, 0⟩, ⟨0, 1, 0⟩, ⟨0, 0, 1⟩⟩ : Mat3 ℚ) ((1 : ℚ)/10) (RmaxArg.given (1/2)) false false).gr.getD 1 0 =
        ((histsOf ((1 : ℚ)/10) (resolveRmaxSq (⟨⟨1, 0, 0⟩, ⟨0, 1, 0⟩, ⟨0, 0, 1⟩⟩ : Mat3 ℚ) (RmaxArg.given (1/2))) (nbins ((1 : ℚ)/10) (resolveRmaxSq (⟨⟨1, 0, 0⟩, ⟨0, 1, 0⟩, ⟨0, 0, 1⟩⟩ : Mat3 ℚ) (RmaxArg.given (1/2))))
            (distsOf false (⟨⟨1, 0, 0⟩, ⟨0, 1, 0⟩, ⟨0, 0, 1⟩⟩ : Mat3 ℚ) ([[⟨0, 0, 0⟩, ⟨3/20, 0, 0⟩]] : List (List (Vec3 ℚ))) ([[⟨0, 0, 0⟩, ⟨3/20, 0, 0⟩]] : List (List (Vec3 ℚ))))).map (fun h => (h.getD 1 0 : ℝ))).sum /
          ((distsOf false (⟨⟨1, 0, 0⟩, ⟨0, 1, 0⟩, ⟨0, 0, 1⟩⟩ : Mat3 ℚ) ([[⟨0, 0, 0⟩, ⟨3/20, 0, 0⟩]] : List (List (Vec3 ℚ))) ([[⟨0, 0, 0⟩, ⟨3/20, 0, 0⟩]] : List (List (Vec3 ℚ)))).length : ℝ) *
          ((volume_cell (⟨⟨1, 0, 0⟩, ⟨0, 1, 0⟩, ⟨0, 0, 1⟩⟩ : Mat3 ℚ) : ℚ) : ℝ) /
          (shellVol ((1 : ℚ)/10) 1 *
            (((([[⟨0, 0, 0⟩, ⟨3/20, 0, 0⟩]] : List (List (Vec3 ℚ))).headI).length : ℝ) * ((([[⟨0, 0, 0⟩, ⟨3/20, 0, 0⟩]] : List (List (Vec3 ℚ))).headI).length : ℝ)))) := by
  exact C2_normalization_amended [[⟨0, 0, 0⟩, ⟨3/20, 0, 0⟩]] [[⟨0, 0, 0⟩, ⟨3/20, 0, 0⟩]]
    ⟨⟨1, 0, 0⟩, ⟨0, 1, 0⟩, ⟨0, 0, 1⟩⟩ (1/10) (RmaxArg.given (1/2)) false false 1
    (by norm_num [nbins, ceilSqrtQ, Int.toNat, resolveRmaxSq])

/-- C2 counterexample to the claim as stated: with `norm_vmd` on and a
two-step trajectory whose duplicate counts differ between the steps (3 at the
first step, 5 at the second), the g(r) bin produced by `rpdf` differs from the
claim's formula `mean_hist × V / (shell_volume × (n0·n1 − duplicate_count))`
with `duplicate_count` taken from the *first* time step: the source divides
each step's histogram by its own step's duplicate count. -/
theorem C2_counterexample :
    ((distsOf false ⟨⟨1, 0, 0⟩, ⟨0, 1, 0⟩, ⟨0, 0, 1⟩⟩
        [[⟨0, 0, 0⟩, ⟨3/20, 0, 0⟩, ⟨7/20, 0, 0⟩], [⟨0, 0, 0⟩, ⟨0, 0, 0⟩, ⟨1/4, 0, 0⟩]]
        [[⟨0, 0, 0⟩, ⟨3/20, 0, 0⟩, ⟨7/20, 0, 0⟩], [⟨0, 0, 0⟩, ⟨0, 0, 0⟩, ⟨1/4, 0, 0⟩]]).map
      (dupsStep true)) = [3, 5] ∧
    histsOf (1/10) ((1/2)^2) 5 (distsOf false ⟨⟨1, 0, 0⟩, ⟨0, 1, 0⟩, ⟨0, 0, 1⟩⟩
        [[⟨0, 0, 0⟩, ⟨3/20, 0, 0⟩, ⟨7/20, 0, 0⟩], [⟨0, 0, 0⟩, ⟨0, 0, 0⟩, ⟨1/4, 0, 0⟩]]
        [[⟨0, 0, 0⟩, ⟨3/20, 0, 0⟩, ⟨7/20, 0, 0⟩], [⟨0, 0, 0⟩, ⟨0, 0, 0⟩, ⟨1/4, 0, 0⟩]]) =
      [[0, 2, 2, 2, 0], [0, 0, 4, 0, 0]] ∧
    (rpdfOut [[⟨0, 0, 0⟩, ⟨3/20, 0, 0⟩, ⟨7/20, 0, 0⟩], [⟨0, 0, 0⟩, ⟨0, 0, 0⟩, ⟨1/4, 0, 0⟩]]
        [[⟨0, 0, 0⟩, ⟨3/20, 0, 0⟩, ⟨7/20, 0, 0⟩], [⟨0, 0, 0⟩, ⟨0, 0, 0⟩, ⟨1/4, 0, 0⟩]]
        ⟨⟨1, 0, 0⟩, ⟨0, 1, 0⟩, ⟨0, 0, 1⟩⟩ (1/10) (RmaxArg.given (1/2)) false true).gr.getD 2 0 ≠
      (((2 : ℝ) + 4) / 2) *
        ((volume_cell ⟨⟨1, 0, 0⟩, ⟨0, 1, 0⟩, ⟨0, 0, 1⟩⟩ : ℚ) : ℝ) /
        (shellVol (1/10) 2 * ((3 * 3 : ℝ) - 3)) := by
  have hdl : distsOf false ⟨⟨1, 0, 0⟩, ⟨0, 1, 0⟩, ⟨0, 0, 1⟩⟩
      [[⟨0, 0, 0⟩, ⟨3/20, 0, 0⟩, ⟨7/20, 0, 0⟩], [⟨0, 0, 0⟩, ⟨0, 0, 0⟩, ⟨1/4, 0, 0⟩]]
      [[⟨0, 0, 0⟩, ⟨3/20, 0, 0⟩, ⟨7/20, 0, 0⟩], [⟨0, 0, 0⟩, ⟨0, 0, 0⟩, ⟨1/4, 0, 0⟩]] =
      [[0, 9/400, 49/400, 9/400, 0, 1/25, 49/400, 1/25, 0],
       [0, 0, 1/16, 0, 0, 1/16, 1/16, 1/16, 0]] := by
    norm_num [distsOf, distsSqStep, sqDist, rowMulMat, Vec3.sub, Vec3.normSq]
  have hdups : ((distsOf false ⟨⟨1, 0, 0⟩, ⟨0, 1, 0⟩, ⟨0, 0, 1⟩⟩
      [[⟨0, 0, 0⟩, ⟨3/20, 0, 0⟩, ⟨7/20, 0, 0⟩], [⟨0, 0, 0⟩, ⟨0, 0, 0⟩, ⟨1/4, 0, 0⟩]]
      [[⟨0, 0, 0⟩, ⟨3/20, 0, 0⟩, ⟨7/20, 0, 0⟩], [⟨0, 0, 0⟩, ⟨0, 0, 0⟩, ⟨1/4, 0, 0⟩]]).map
      (dupsStep true)) = [3, 5] := by
    rw [hdl]
    norm_num [dupsStep]
  have hhist : histsOf (1/10) ((1/2)^2) 5 (distsOf false ⟨⟨1, 0, 0⟩, ⟨0, 1, 0⟩, ⟨0, 0, 1⟩⟩
      [[⟨0, 0, 0⟩, ⟨3/20, 0, 0⟩, ⟨7/20, 0, 0⟩], [⟨0, 0, 0⟩, ⟨0, 0, 0⟩, ⟨1/4, 0, 0⟩]]
      [[⟨0, 0, 0⟩, ⟨3/20, 0, 0⟩, ⟨7/20, 0, 0⟩], [⟨0, 0, 0⟩, ⟨0, 0, 0⟩, ⟨1/4, 0, 0⟩]]) =
      [[0, 2, 2, 2, 0], [0, 0, 4, 0, 0]] := by
    rw [hdl]
    norm_num [histsOf, tabulate, histZStep, zeroBig, inBin]
  refine ⟨hdups, hhist, ?_⟩
  have hsh : 0 < shellVol (1/10) 2 := by
    have h19 : ((((2 : ℕ) + 1 : ℕ) : ℝ) * ((1/10 : ℚ) : ℝ)) ^ 3 -
        (((2 : ℕ) : ℝ) * ((1/10 : ℚ) : ℝ)) ^ 3 = 19/1000 := by
      push_cast
      norm_num
    unfold shellVol
    rw [h19]
    positivity
  have hvol : volume_cell ⟨⟨1, 0, 0⟩, ⟨0, 1, 0⟩, ⟨0, 0, 1⟩⟩ = 1 := by
    norm_num [volume_cell, det3, Vec3.dot, Vec3.cross]
  have hnb : nbins (1/10) ((1/2 : ℚ)^2) = 5 := by
    norm_num [nbins, ceilSqrtQ, Int.toNat]
  have hval : (rpdfOut [[⟨0, 0, 0⟩, ⟨3/20, 0, 0⟩, ⟨7/20, 0, 0⟩], [⟨0, 0, 0⟩, ⟨0, 0, 0⟩, ⟨1/4, 0, 0⟩]]
      [[⟨0, 0, 0⟩, ⟨3/20, 0, 0⟩, ⟨7/20, 0, 0⟩], [⟨0, 0, 0⟩, ⟨0, 0, 0⟩, ⟨1/4, 0, 0⟩]]
      ⟨⟨1, 0, 0⟩, ⟨0, 1, 0⟩, ⟨0, 0, 1⟩⟩ (1/10) (RmaxArg.given (1/2)) false true).gr.getD 2 0 =
      2 / (3 * shellVol (1/10) 2) := by
    simp only [rpdfOut, resolveRmaxSq]
    rw [hnb, hhist, hdups, hvol]
    simp only [mkOut, tabulate, List.headI, List.length_cons, List.length_nil,
      List.zip_cons_cons, List.zip_nil_right, List.map_cons, List.map_nil, List.sum_cons,
      List.sum_nil, List.getD_cons_succ, List.getD_cons_zero]
    push_cast
    have hne : shellVol (1/10) 2 ≠ 0 := ne_of_gt hsh
    field_simp
    ring
  rw [hval, hvol]
  push_cast
  intro heq
  rw [div_eq_div_iff (by positivity) (by positivity)] at heq
  nlinarith [hsh]

/-! ## Histogram bookkeeping lemmas for the number integral (C1) -/

theorem zeroBig_eq_self (rq : ℚ) (l : List ℚ) (h : ∀ s ∈ l, s < rq) :
    zeroBig rq l = l := by
  unfold zeroBig
  conv_rhs => rw [← List.map_id l]
  apply List.map_congr_left
  intro s hs
  simp [not_le.mpr (h s hs)]

theorem length_distsSqStep (pbc : Bool) (cell : Mat3 ℚ) (r0 r1 : List (Vec3 ℚ)) :
    (distsSqStep pbc cell r0 r1).length = r0.length * r1.length := by
  unfold distsSqStep
  rw [List.length_flatten, List.map_map]
  have hmap : (r0.map (List.length ∘ fun a => r1.map (fun b => sqDist pbc cell a b))) =
      r0.map (fun _ => r1.length) := by
    apply List.map_congr_left
    intro a _
    simp
  rw [hmap]
  induction r0 with
  | nil => simp
  | cons a t ih => simp [ih]; ring

theorem sqDist_self (pbc : Bool) (cell : Mat3 ℚ) (a : Vec3 ℚ) :
    sqDist pbc cell a a = 0 := by
  have h0 : Vec3.sub a a = ⟨0, 0, 0⟩ := by simp [Vec3.sub]
  unfold sqDist
  rw [h0]
  cases pbc <;> simp [mic3, micQ_zero, rowMulMat, Vec3.normSq]

/-- `⌊d/dr⌋` on squares: the bin index of a distance with square `s`. -/
def binIdx (dr s : ℚ) : ℕ :=
  floorSqrtQ (s / dr ^ 2)

theorem nbins_sq (dr rq : ℚ) (hdr : 0 < dr) :
    rq ≤ ((nbins dr rq : ℚ) * dr) ^ 2 := by
  have h := ceilSqrtQ_le_sq (rq / dr ^ 2)
  unfold nbins
  have hdr2 : (0 : ℚ) < dr ^ 2 := by positivity
  rw [div_le_iff₀ hdr2] at h
  calc rq ≤ (ceilSqrtQ (rq / dr ^ 2) : ℚ) ^ 2 * dr ^ 2 := h
    _ = ((ceilSqrtQ (rq / dr ^ 2) : ℚ) * dr) ^ 2 := by ring

theorem binIdx_spec (dr rq : ℚ) (hdr : 0 < dr) (_hrq : 0 < rq) (s : ℚ)
    (hs1 : dr ^ 2 ≤ s) (hs2 : s < rq) :
    1 ≤ binIdx dr s ∧ binIdx dr s < nbins dr rq ∧
      (∀ i, 1 ≤ i → i < nbins dr rq →
        (inBin dr (nbins dr rq) i s ↔ i = binIdx dr s)) := by
  have hdr2 : (0 : ℚ) < dr ^ 2 := by positivity
  have hq0 : (0 : ℚ) ≤ s / dr ^ 2 := by
    have hs0 : (0 : ℚ) < s := lt_of_lt_of_le hdr2 hs1
    positivity
  have hlow : ∀ k : ℕ, (((k : ℚ) * dr) ^ 2 ≤ s ↔ k ≤ binIdx dr s) := by
    intro k
    have h1 : ((k : ℚ) * dr) ^ 2 ≤ s ↔ (k : ℚ) ^ 2 ≤ s / dr ^ 2 := by
      rw [le_div_iff₀ hdr2]
      constructor <;> intro h <;> nlinarith
    rw [h1]
    exact le_floorSqrtQ_iff (s / dr ^ 2) hq0 k
  have hone : 1 ≤ binIdx dr s := by
    rw [← hlow 1]
    push_cast
    calc (1 * dr) ^ 2 = dr ^ 2 := by ring
      _ ≤ s := hs1
  have hub : binIdx dr s < nbins dr rq := by
    have hfs : ((binIdx dr s : ℚ)) ^ 2 ≤ s / dr ^ 2 := floorSqrtQ_le _ hq0
    have hnb : rq / dr ^ 2 ≤ ((nbins dr rq : ℚ)) ^ 2 := ceilSqrtQ_le_sq _
    have hq : s / dr ^ 2 < rq / dr ^ 2 := by
      exact div_lt_div_of_pos_right hs2 hdr2
    by_contra hc
    push_neg at hc
    have hcast : ((nbins dr rq : ℚ)) ≤ ((binIdx dr s : ℚ)) := by exact_mod_cast hc
    have : ((nbins dr rq : ℚ)) ^ 2 ≤ ((binIdx dr s : ℚ)) ^ 2 := by
      nlinarith [Nat.cast_nonneg (α := ℚ) (nbins dr rq)]
    linarith
  refine ⟨hone, hub, ?_⟩
  intro i hi1 hinb
  unfold inBin
  have hup : ∀ k : ℕ, (s < ((k : ℚ) * dr) ^ 2 ↔ binIdx dr s < k) := by
    intro k
    constructor
    · intro h
      by_contra hc
      push_neg at hc
      have := (hlow k).mpr hc
      linarith
    · intro h
      have hk1 := (hlow k).not.mpr (by omega)
      push_neg at hk1
      exact hk1
  by_cases hlast : i + 1 = nbins dr rq
  · rw [if_pos hlast]
    constructor
    · rintro ⟨h1, -⟩
      have hle := (hlow i).mp h1
      omega
    · intro h
      subst h
      refine ⟨(hlow _).mpr le_rfl, ?_⟩
      have := nbins_sq dr rq hdr
      rw [← hlast] at this
      push_cast at this ⊢
      linarith
  · rw [if_neg hlast]
    constructor
    · rintro ⟨h1, h2⟩
      have hle := (hlow i).mp h1
      have hgt := (hup (i + 1)).mp (by exact_mod_cast h2)
      omega
    · intro h
      subst h
      refine ⟨(hlow _).mpr le_rfl, ?_⟩
      have := (hup (binIdx dr s + 1)).mpr (by omega)
      exact_mod_cast this

theorem countP_eq_sum_map_ite {α : Type} (p : α → Bool) (l : List α) :
    l.countP p = (l.map (fun s => if p s then 1 else 0)).sum := by
  induction l with
  | nil => simp
  | cons a t ih =>
      rw [List.countP_cons, List.map_cons, List.sum_cons, ih]
      by_cases h : p a <;> simp [h] <;> omega

theorem sum_countP_comm (t : Finset ℕ) (L : List ℚ) (p : ℕ → ℚ → Bool) :
    t.sum (fun i => L.countP (p i)) =
      (L.map (fun s => t.sum (fun i => if p i s then 1 else 0))).sum := by
  induction L with
  | nil => simp
  | cons a l ih =>
      simp only [List.countP_cons, List.map_cons, List.sum_cons]
      rw [Finset.sum_add_distrib, ih]
      omega

/-- One step of `rpdf`'s histogram: when every squared distance of the step is
either exactly `0` or lies in `[dr², rmax²)`, the total bin count over all
bins equals the number of nonzero distances (each is counted exactly once, in
its bin `⌊d/dr⌋ ≥ 1`; zeros land in the zeroed first bin). -/
theorem sum_histZStep (dr rq : ℚ) (hdr : 0 < dr) (hrq : 0 < rq) (l : List ℚ)
    (hl : ∀ s ∈ l, s = 0 ∨ (dr ^ 2 ≤ s ∧ s < rq)) :
    (Finset.range (nbins dr rq)).sum (fun i => histZStep dr rq (nbins dr rq) l i) =
      l.countP (fun s => decide (s ≠ 0)) := by
  have hz : zeroBig rq l = l := by
    apply zeroBig_eq_self
    intro s hs
    rcases hl s hs with h | h
    · rw [h]; exact hrq
    · exact h.2
  have hstep : ∀ i, histZStep dr rq (nbins dr rq) l i =
      l.countP (fun s => decide (¬ i = 0 ∧ inBin dr (nbins dr rq) i s)) := by
    intro i
    unfold histZStep
    rw [hz]
    by_cases h : i = 0
    · subst h
      simp
    · rw [if_neg h]
      apply List.countP_congr
      intro a _
      simp [h]
  rw [Finset.sum_congr rfl (fun i _ => hstep i), sum_countP_comm,
    countP_eq_sum_map_ite]
  congr 1
  apply List.map_congr_left
  intro s hs
  simp only [decide_eq_true_eq]
  rcases hl s hs with h | h
  · subst h
    have hz0 : (Finset.range (nbins dr rq)).sum
        (fun i => if ¬ i = 0 ∧ inBin dr (nbins dr rq) i 0 then 1 else 0) = 0 := by
      apply Finset.sum_eq_zero
      intro i hi
      rw [if_neg]
      rintro ⟨hi0, hbin⟩
      have h1 : (1 : ℚ) ≤ (i : ℚ) := by exact_mod_cast Nat.one_le_iff_ne_zero.mpr hi0
      have hpos : 0 < ((i : ℚ) * dr) ^ 2 := by positivity
      have h2 := hbin.1
      linarith
    rw [hz0]
    simp
  · obtain ⟨h1, h2⟩ := h
    have hspec := binIdx_spec dr rq hdr hrq s h1 h2
    have hne : s ≠ 0 := by
      have hgt : (0 : ℚ) < s := lt_of_lt_of_le (by positivity) h1
      exact ne_of_gt hgt
    rw [if_pos hne]
    have hcongr : ∀ i ∈ Finset.range (nbins dr rq),
        (if ¬ i = 0 ∧ inBin dr (nbins dr rq) i s then 1 else 0) =
          (if i = binIdx dr s then 1 else 0) := by
      intro i hi
      rw [Finset.mem_range] at hi
      by_cases h0 : i = 0
      · subst h0
        rw [if_neg (by simp), if_neg (by omega)]
      · have h1le : 1 ≤ i := Nat.one_le_iff_ne_zero.mpr h0
        simp only [hspec.2.2 i h1le hi]
        simp [h0]
    rw [Finset.sum_congr rfl hcongr, Finset.sum_ite_eq' (Finset.range (nbins dr rq))]
    rw [if_pos (Finset.mem_range.mpr hspec.2.1)]

theorem sum_map_const {α : Type} (l : List α) (c : ℚ) :
    (l.map (fun _ => c)).sum = (l.length : ℚ) * c := by
  induction l with
  | nil => simp
  | cons a t ih =>
      simp only [List.map_cons, List.sum_cons, List.length_cons, ih]
      push_cast
      ring

theorem sum_map_constN {α : Type} (l : List α) (c : ℕ) :
    (l.map (fun _ => c)).sum = l.length * c := by
  induction l with
  | nil => simp
  | cons a t ih =>
      simp only [List.map_cons, List.sum_cons, List.length_cons, ih]
      ring

theorem one_le_nbins (dr rq : ℚ) (hdr : 0 < dr) (hrq : 0 < rq) :
    1 ≤ nbins dr rq := by
  unfold nbins ceilSqrtQ
  rw [if_neg]
  · omega
  · push_neg
    positivity

theorem mem_zip_same {α : Type} (l : List α) (p : α × α) (hp : p ∈ List.zip l l) :
    p.1 = p.2 ∧ p.1 ∈ l := by
  induction l with
  | nil => simp at hp
  | cons a t ih =>
      rw [List.zip_cons_cons, List.mem_cons] at hp
      rcases hp with h | h
      · subst h
        exact ⟨rfl, List.mem_cons_self a t⟩
      · exact ⟨(ih h).1, List.mem_cons_of_mem a (ih h).2⟩

/-- For a self-correlation step (`row` against itself) with pairwise distinct
atoms at nonzero distance, the nonzero entries of the squared-distance list
are exactly the off-diagonal pairs: `n·(n−1)` of them. -/
theorem countP_ne_zero_self (pbc : Bool) (cell : Mat3 ℚ) (row : List (Vec3 ℚ))
    (hnd : row.Nodup)
    (h : ∀ a ∈ row, ∀ b ∈ row, a ≠ b → sqDist pbc cell a b ≠ 0) :
    (distsSqStep pbc cell row row).countP (fun s => decide (s ≠ 0)) =
      row.length * (row.length - 1) := by
  unfold distsSqStep
  rw [List.countP_flatten, List.map_map]
  have hmap : row.map ((List.countP (fun s => decide (s ≠ 0))) ∘
      (fun a => row.map (fun b => sqDist pbc cell a b))) =
      row.map (fun _ => row.length - 1) := by
    apply List.map_congr_left
    intro a ha
    simp only [Function.comp_apply, List.countP_map]
    have heq : ∀ b ∈ row,
        (((fun s => decide (s ≠ 0)) ∘ fun b => sqDist pbc cell a b) b = true ↔
          (!(decide (b = a))) = true) := by
      intro b hb
      simp only [Function.comp_apply, decide_eq_true_eq, Bool.not_eq_true',
        decide_eq_false_iff_not]
      constructor
      · intro hs hba
        subst hba
        exact hs (sqDist_self pbc cell b)
      · intro hba
        exact h a ha b hb (fun hc => hba hc.symm)
    rw [List.countP_congr heq]
    have hsplit : row.length = row.countP (fun b => decide (b = a)) +
        row.countP (fun b => !(decide (b = a))) := by
      simpa using List.length_eq_countP_add_countP (l := row) (fun b => decide (b = a))
    have hcount : row.countP (fun b => decide (b = a)) = 1 := by
      have hc := List.count_eq_one_of_mem hnd ha
      simpa [List.count_eq_countP] using hc
    omega
  rw [hmap]
  exact sum_map_constN row (row.length - 1)

/-- Value of the last entry of the number-integral column: when every step's
nonzero-distance count is `cnt`, the final cumulative value is `cnt / n0`. -/
theorem num_int_last (coords0 coords1 : List (List (Vec3 ℚ))) (cell : Mat3 ℚ)
    (dr : ℚ) (rmax : RmaxArg) (pbc normVmd : Bool)
    (hdr : 0 < dr) (hrq : 0 < resolveRmaxSq cell rmax)
    (hl : ∀ l ∈ distsOf pbc cell coords0 coords1, ∀ s ∈ l,
      s = 0 ∨ (dr ^ 2 ≤ s ∧ s < resolveRmaxSq cell rmax))
    (cnt : ℕ)
    (hcnt : ∀ l ∈ distsOf pbc cell coords0 coords1,
      l.countP (fun s => decide (s ≠ 0)) = cnt)
    (hne : coords0 ≠ []) (hlen : coords1.length = coords0.length) :
    (rpdfOut coords0 coords1 cell dr rmax pbc normVmd).num_int.getD
        (nbins dr (resolveRmaxSq cell rmax) - 1) 0 =
      (cnt : ℚ) / ((coords0.headI).length : ℚ) := by
  have hnb : 1 ≤ nbins dr (resolveRmaxSq cell rmax) := one_le_nbins _ _ hdr hrq
  have hi : nbins dr (resolveRmaxSq cell rmax) - 1 < nbins dr (resolveRmaxSq cell rmax) := by
    omega
  simp only [rpdfOut, mkOut]
  rw [tabulate_getD _ _ _ _ hi]
  have hrange : nbins dr (resolveRmaxSq cell rmax) - 1 + 1 =
      nbins dr (resolveRmaxSq cell rmax) := by omega
  rw [hrange]
  have hdlen : (distsOf pbc cell coords0 coords1).length = coords0.length := by
    unfold distsOf
    rw [List.length_map, List.length_zip, hlen, min_self]
  have hcongr : (histsOf dr (resolveRmaxSq cell rmax) (nbins dr (resolveRmaxSq cell rmax))
      (distsOf pbc cell coords0 coords1)).map
        (fun h => ((Finset.range (nbins dr (resolveRmaxSq cell rmax))).sum
          (fun j => (h.getD j 0 : ℚ))) / ((coords0.headI).length : ℚ)) =
      (distsOf pbc cell coords0 coords1).map
        (fun _ => (cnt : ℚ) / ((coords0.headI).length : ℚ)) := by
    unfold histsOf
    rw [List.map_map]
    apply List.map_congr_left
    intro l hlmem
    simp only [Function.comp_apply]
    congr 1
    have hsum : (Finset.range (nbins dr (resolveRmaxSq cell rmax))).sum
        (fun j => ((tabulate (nbins dr (resolveRmaxSq cell rmax))
          (histZStep dr (resolveRmaxSq cell rmax)
            (nbins dr (resolveRmaxSq cell rmax)) l)).getD j 0 : ℚ)) =
        (Finset.range (nbins dr (resolveRmaxSq cell rmax))).sum
          (fun j => (histZStep dr (resolveRmaxSq cell rmax)
            (nbins dr (resolveRmaxSq cell rmax)) l j : ℚ)) := by
      apply Finset.sum_congr rfl
      intro j hj
      rw [Finset.mem_range] at hj
      rw [tabulate_getD _ _ _ _ hj]
    rw [hsum]
    rw [← Nat.cast_sum]
    rw [sum_histZStep dr (resolveRmaxSq cell rmax) hdr hrq l (hl l hlmem)]
    exact_mod_cast congrArg (Nat.cast (R := ℚ)) (hcnt l hlmem)
  have hhl : (histsOf dr (resolveRmaxSq cell rmax) (nbins dr (resolveRmaxSq cell rmax))
      (distsOf pbc cell coords0 coords1)).length =
      (distsOf pbc cell coords0 coords1).length := by
    simp [histsOf]
  rw [hcongr, hhl, sum_map_const, hdlen]
  have hlen0 : (0 : ℚ) < (coords0.length : ℚ) := by
    have hne0 : coords0.length ≠ 0 := fun hc => hne (List.length_eq_zero.mp hc)
    exact_mod_cast Nat.pos_of_ne_zero hne0
  exact mul_div_cancel_left₀ _ (ne_of_gt hlen0)

/-- C1 (amended): (i) the number-integral column of `rpdf` is
`cumsum(raw_bin_counts)/n0` averaged over time steps, for every bin.
(ii) For two selections whose computed pair distances all lie in
`[dr, rmax)` — in particular none falls in the zeroed first bin `[0, dr)` and
none is an exact duplicate — the last value with selection order `(A,B)` is
`B` (hence `A` with order `(B,A)`, by instantiating with the selections
swapped).  (iii) For a self-correlated selection of `n` pairwise-distinct
atoms whose off-diagonal distances all lie in `[dr, rmax)`, the last value is
`n − 1`.  (The restriction to distances `≥ dr` is forced by the zeroed first
bin, see the C5 analysis; squared quantities throughout.) -/
theorem C1_number_integral (coords0 coords1 : List (List (Vec3 ℚ))) (cell : Mat3 ℚ)
    (dr : ℚ) (rmax : RmaxArg) (pbc normVmd : Bool) :
    (∀ i, i < nbins dr (resolveRmaxSq cell rmax) →
      (rpdfOut coords0 coords1 cell dr rmax pbc normVmd).num_int.getD i 0 =
        ((histsOf dr (resolveRmaxSq cell rmax) (nbins dr (resolveRmaxSq cell rmax))
            (distsOf pbc cell coords0 coords1)).map
          (fun h => ((Finset.range (i + 1)).sum (fun j => (h.getD j 0 : ℚ))) /
            ((coords0.headI).length : ℚ))).sum /
          ((distsOf pbc cell coords0 coords1).length : ℚ)) ∧
    (0 < dr → 0 < resolveRmaxSq cell rmax → coords0 ≠ [] →
      coords1.length = coords0.length →
      0 < (coords0.headI).length →
      (∀ r ∈ coords0, r.length = (coords0.headI).length) →
      (∀ r ∈ coords1, r.length = (coords1.headI).length) →
      (∀ l ∈ distsOf pbc cell coords0 coords1, ∀ s ∈ l,
        dr ^ 2 ≤ s ∧ s < resolveRmaxSq cell rmax) →
      (rpdfOut coords0 coords1 cell dr rmax pbc normVmd).num_int.getD
          (nbins dr (resolveRmaxSq cell rmax) - 1) 0 =
        ((coords1.headI).length : ℚ)) ∧
    (0 < dr → 0 < resolveRmaxSq cell rmax → coords0 ≠ [] →
      0 < (coords0.headI).length →
      (∀ r ∈ coords0, r.length = (coords0.headI).length) →
      (∀ row ∈ coords0, row.Nodup) →
      (∀ row ∈ coords0, ∀ a ∈ row, ∀ b ∈ row, a ≠ b →
        dr ^ 2 ≤ sqDist pbc cell a b ∧ sqDist pbc cell a b < resolveRmaxSq cell rmax) →
      (rpdfOut coords0 coords0 cell dr rmax pbc normVmd).num_int.getD
          (nbins dr (resolveRmaxSq cell rmax) - 1) 0 =
        ((coords0.headI).length : ℚ) - 1) := by
  refine ⟨?_, ?_, ?_⟩
  · intro i hi
    simp only [rpdfOut, mkOut]
    rw [tabulate_getD _ _ _ _ hi]
    have hhl : (histsOf dr (resolveRmaxSq cell rmax) (nbins dr (resolveRmaxSq cell rmax))
        (distsOf pbc cell coords0 coords1)).length =
        (distsOf pbc cell coords0 coords1).length := by
      simp [histsOf]
    rw [hhl]
  · intro hdr hrq hne hlen hn0 hrow0 hrow1 hdist
    have hn1 : ∀ l ∈ distsOf pbc cell coords0 coords1,
        l.countP (fun s => decide (s ≠ 0)) = (coords0.headI).length * (coords1.headI).length := by
      intro l hlmem
      have hall : ∀ s ∈ l, (fun s => decide (s ≠ 0)) s = true := by
        intro s hs
        have h := (hdist l hlmem s hs).1
        have hpos : (0 : ℚ) < s := lt_of_lt_of_le (by positivity) h
        simpa using ne_of_gt hpos
      rw [List.countP_eq_length.mpr hall]
      simp only [distsOf, List.mem_map] at hlmem
      obtain ⟨rc, hrc, rfl⟩ := hlmem
      rw [length_distsSqStep]
      have h1 := List.of_mem_zip hrc
      rw [hrow0 rc.1 h1.1, hrow1 rc.2 h1.2]
    have hlast := num_int_last coords0 coords1 cell dr rmax pbc normVmd hdr hrq
      (fun l hl s hs => Or.inr (hdist l hl s hs))
      ((coords0.headI).length * (coords1.headI).length) hn1 hne hlen
    rw [hlast]
    push_cast
    rw [mul_div_assoc]
    have hne0 : ((coords0.headI).length : ℚ) ≠ 0 := by
      exact_mod_cast Nat.pos_iff_ne_zero.mp hn0
    rw [mul_comm, div_mul_cancel₀ _ hne0]
  · intro hdr hrq hne hn0 hrow0 hnd hd
    have hcnt : ∀ l ∈ distsOf pbc cell coords0 coords0,
        l.countP (fun s => decide (s ≠ 0)) =
          (coords0.headI).length * ((coords0.headI).length - 1) := by
      intro l hlmem
      simp only [distsOf, List.mem_map] at hlmem
      obtain ⟨rc, hrc, rfl⟩ := hlmem
      obtain ⟨hfs, hmem⟩ := mem_zip_same coords0 rc hrc
      rw [← hfs]
      rw [countP_ne_zero_self pbc cell rc.1 (hnd rc.1 hmem)
        (fun a ha b hb hab => ne_of_gt (lt_of_lt_of_le (by positivity)
          (hd rc.1 hmem a ha b hb hab).1))]
      rw [hrow0 rc.1 hmem]
    have hl : ∀ l ∈ distsOf pbc cell coords0 coords0, ∀ s ∈ l,
        s = 0 ∨ (dr ^ 2 ≤ s ∧ s < resolveRmaxSq cell rmax) := by
      intro l hlmem s hs
      simp only [distsOf, List.mem_map] at hlmem
      obtain ⟨rc, hrc, rfl⟩ := hlmem
      obtain ⟨hfs, hmem⟩ := mem_zip_same coords0 rc hrc
      rw [← hfs] at hs
      simp only [distsSqStep, List.mem_flatten, List.mem_map] at hs
      obtain ⟨inner, ⟨a, ha, rfl⟩, hs2⟩ := hs
      obtain ⟨b, hb, rfl⟩ := List.mem_map.mp hs2
      by_cases hab : a = b
      · subst hab
        exact Or.inl (sqDist_self pbc cell a)
      · exact Or.inr (hd rc.1 hmem a ha b hb hab)
    have hlast := num_int_last coords0 coords0 cell dr rmax pbc normVmd hdr hrq hl
      ((coords0.headI).length * ((coords0.headI).length - 1)) hcnt hne rfl
    rw [hlast]
    have hne0 : ((coords0.headI).length : ℚ) ≠ 0 := by
      exact_mod_cast Nat.pos_iff_ne_zero.mp hn0
    rw [Nat.cast_mul, Nat.cast_sub hn0]
    push_cast
    rw [mul_div_assoc, mul_comm, div_mul_cancel₀ _ hne0]

/-- C1 witness: the three amended statements instantiated at concrete inputs
(one O-like atom against one H-like atom at distance 3/20, and a two-atom
self-correlation), all hypotheses discharged by evaluation. -/
theorem C1_number_integral_witness :
    ((rpdfOut ([[⟨0, 0, 0⟩]] : List (List (Vec3 ℚ))) ([[⟨3/20, 0, 0⟩]] : List (List (Vec3 ℚ))) (⟨⟨1, 0, 0⟩, ⟨0, 1, 0⟩, ⟨0, 0, 1⟩⟩ : Mat3 ℚ) ((1 : ℚ)/10) (RmaxArg.given (1/2)) false false).num_int.getD 1 0 =
        ((histsOf ((1 : ℚ)/10) (resolveRmaxSq (⟨⟨1, 0, 0⟩, ⟨0, 1, 0⟩, ⟨0, 0, 1⟩⟩ : Mat3 ℚ) (RmaxArg.given (1/2))) (nbins ((1 : ℚ)/10) (resolveRmaxSq (⟨⟨1, 0, 0⟩, ⟨0, 1, 0⟩, ⟨0, 0, 1⟩⟩ : Mat3 ℚ) (RmaxArg.given (1/2))))
            (distsOf false (⟨⟨1, 0, 0⟩, ⟨0, 1, 0⟩, ⟨0, 0, 1⟩⟩ : Mat3 ℚ) ([[⟨0, 0, 0⟩]] : List (List (Vec3 ℚ))) ([[⟨3/20, 0, 0⟩]] : List (List (Vec3 ℚ))))).map
          (fun h => ((Finset.range (1 + 1)).sum (fun j => (h.getD j 0 : ℚ))) /
            ((([[⟨0, 0, 0⟩]] : List (List (Vec3 ℚ))).headI).length : ℚ))).sum /
          ((distsOf false (⟨⟨1, 0, 0⟩, ⟨0, 1, 0⟩, ⟨0, 0, 1⟩⟩ : Mat3 ℚ) ([[⟨0, 0, 0⟩]] : List (List (Vec3 ℚ))) ([[⟨3/20, 0, 0⟩]] : List (List (Vec3 ℚ)))).length : ℚ)) ∧
    ((rpdfOut [[⟨0, 0, 0⟩]] [[⟨3/20, 0, 0⟩]] ⟨⟨1, 0, 0⟩, ⟨0, 1, 0⟩, ⟨0, 0, 1⟩⟩
        ((1 : ℚ)/10) (RmaxArg.given (1/2)) false false).num_int.getD
        (nbins ((1 : ℚ)/10) (resolveRmaxSq ⟨⟨1, 0, 0⟩, ⟨0, 1, 0⟩, ⟨0, 0, 1⟩⟩
          (RmaxArg.given (1/2))) - 1) 0 =
      ((([[⟨3/20, 0, 0⟩]] : List (List (Vec3 ℚ))).headI).length : ℚ)) ∧
    ((rpdfOut [[⟨0, 0, 0⟩, ⟨3/20, 0, 0⟩]] [[⟨0, 0, 0⟩, ⟨3/20, 0, 0⟩]]
        ⟨⟨1, 0, 0⟩, ⟨0, 1, 0⟩, ⟨0, 0, 1⟩⟩ ((1 : ℚ)/10) (RmaxArg.given (1/2)) false false).num_int.getD
        (nbins ((1 : ℚ)/10) (resolveRmaxSq ⟨⟨1, 0, 0⟩, ⟨0, 1, 0⟩, ⟨0, 0, 1⟩⟩
          (RmaxArg.given (1/2))) - 1) 0 =
      ((([[⟨0, 0, 0⟩, ⟨3/20, 0, 0⟩]] : List (List (Vec3 ℚ))).headI).length : ℚ) - 1) := by
  have hdl : distsOf false ⟨⟨1, 0, 0⟩, ⟨0, 1, 0⟩, ⟨0, 0, 1⟩⟩
      [[⟨0, 0, 0⟩]] [[⟨3/20, 0, 0⟩]] = [[9/400]] := by
    norm_num [distsOf, distsSqStep, sqDist, rowMulMat, Vec3.sub, Vec3.normSq]
  refine ⟨?_, ?_, ?_⟩
  · exact (C1_number_integral [[⟨0, 0, 0⟩]] [[⟨3/20, 0, 0⟩]]
      ⟨⟨1, 0, 0⟩, ⟨0, 1, 0⟩, ⟨0, 0, 1⟩⟩ ((1 : ℚ)/10) (RmaxArg.given (1/2)) false false).1 1
      (by norm_num [nbins, ceilSqrtQ, Int.toNat, resolveRmaxSq])
  · apply (C1_number_integral [[⟨0, 0, 0⟩]] [[⟨3/20, 0, 0⟩]]
      ⟨⟨1, 0, 0⟩, ⟨0, 1, 0⟩, ⟨0, 0, 1⟩⟩ ((1 : ℚ)/10) (RmaxArg.given (1/2)) false false).2.1
    · norm_num
    · norm_num [resolveRmaxSq]
    · simp
    · rfl
    · simp
    · intro r hr
      rw [List.mem_singleton] at hr
      subst hr
      rfl
    · intro r hr
      rw [List.mem_singleton] at hr
      subst hr
      rfl
    · intro l hl s hs
      rw [hdl, List.mem_singleton] at hl
      subst hl
      rw [List.mem_singleton] at hs
      subst hs
      norm_num [resolveRmaxSq]
  · apply (C1_number_integral [[⟨0, 0, 0⟩, ⟨3/20, 0, 0⟩]] [[⟨0, 0, 0⟩, ⟨3/20, 0, 0⟩]]
      ⟨⟨1, 0, 0⟩, ⟨0, 1, 0⟩, ⟨0, 0, 1⟩⟩ ((1 : ℚ)/10) (RmaxArg.given (1/2)) false false).2.2
    · norm_num
    · norm_num [resolveRmaxSq]
    · simp
    · simp
    · intro r hr
      rw [List.mem_singleton] at hr
      subst hr
      rfl
    · intro row hrow
      rw [List.mem_singleton] at hrow
      subst hrow
      norm_num
    · intro row hrow a ha b hb hab
      rw [List.mem_singleton] at hrow
      subst hrow
      fin_cases ha <;> fin_cases hb <;>
        first
          | exact absurd rfl hab
          | norm_num [sqDist, rowMulMat, Vec3.sub, Vec3.normSq, resolveRmaxSq]

/-- C1 counterexample to the claim as stated: two disjoint one-atom selections
(A = B = 1) with `rmax = 1/2` beyond the single pair distance `1/20`
(squared: `1/400 < (1/2)²`), yet the number integral's last value is `0`, not
`B = 1`: the pair distance falls in the zeroed first bin `[0, dr)`. -/
theorem C1_counterexample :
    distsOf false ⟨⟨1, 0, 0⟩, ⟨0, 1, 0⟩, ⟨0, 0, 1⟩⟩ [[⟨0, 0, 0⟩]] [[⟨1/20, 0, 0⟩]] =
        [[1/400]] ∧
    ((0 : ℚ) < 1/400 ∧ (1/400 : ℚ) < (1/2)^2) ∧
    (rpdfOut [[⟨0, 0, 0⟩]] [[⟨1/20, 0, 0⟩]] ⟨⟨1, 0, 0⟩, ⟨0, 1, 0⟩, ⟨0, 0, 1⟩⟩
        (1/10) (RmaxArg.given (1/2)) false false).num_int.getD
        (nbins (1/10) (resolveRmaxSq ⟨⟨1, 0, 0⟩, ⟨0, 1, 0⟩, ⟨0, 0, 1⟩⟩
          (RmaxArg.given (1/2))) - 1) 0 = 0 ∧
    (0 : ℚ) ≠ 1 := by
  refine ⟨?_, by norm_num, ?_, by norm_num⟩
  · norm_num [distsOf, distsSqStep, sqDist, rowMulMat, Vec3.sub, Vec3.normSq]
  · have hnb : nbins (1/10) (resolveRmaxSq ⟨⟨1, 0, 0⟩, ⟨0, 1, 0⟩, ⟨0, 0, 1⟩⟩
        (RmaxArg.given (1/2))) = 5 := by
      norm_num [nbins, ceilSqrtQ, Int.toNat, resolveRmaxSq]
    rw [hnb]
    norm_num [rpdfOut, mkOut, histsOf, histZStep, zeroBig, inBin, distsOf, distsSqStep,
      sqDist, rowMulMat, Vec3.sub, Vec3.normSq, resolveRmaxSq, volume_cell,
      det3, Vec3.dot, Vec3.cross, tabulate, dupsStep, Finset.sum_range_succ,
      nbins, ceilSqrtQ, Int.toNat, List.getD]

theorem argsortD_perm (dists : List (List ℚ)) (idx : ℕ) :
    (argsortD dists idx).Perm (List.range dists.length) :=
  List.perm_insertionSort _ _

theorem argsortD_head (dists : List (List ℚ)) (idx : ℕ)
    (hidx : idx < dists.length)
    (h0 : dist1dF dists idx idx = 0)
    (hpos : ∀ j, j < dists.length → j ≠ idx → 0 < dist1dF dists idx j) :
    ∃ t, argsortD dists idx = idx :: t ∧ idx ∉ t := by
  have hperm := argsortD_perm dists idx
  haveI hto : IsTotal ℕ (fun i j => dist1dF dists idx i ≤ dist1dF dists idx j) :=
    ⟨fun a b => le_total _ _⟩
  haveI htr : IsTrans ℕ (fun i j => dist1dF dists idx i ≤ dist1dF dists idx j) :=
    ⟨fun a b c hab hbc => le_trans hab hbc⟩
  have hsorted : List.Sorted (fun i j => dist1dF dists idx i ≤ dist1dF dists idx j)
      (argsortD dists idx) := List.sorted_insertionSort _ _
  have hnodup : (argsortD dists idx).Nodup := hperm.nodup_iff.mpr (List.nodup_range _)
  have hmem : idx ∈ argsortD dists idx := by
    rw [hperm.mem_iff, List.mem_range]
    exact hidx
  cases hsort : argsortD dists idx with
  | nil =>
      rw [hsort] at hmem
      simp at hmem
  | cons hd t =>
      rw [hsort] at hmem hsorted hnodup hperm
      by_cases hhd : hd = idx
      · subst hhd
        refine ⟨t, rfl, ?_⟩
        exact (List.nodup_cons.mp hnodup).1
      · exfalso
        have hmem2 : hd ∈ List.range dists.length := hperm.mem_iff.mp (List.mem_cons_self hd t)
        rw [List.mem_range] at hmem2
        have hdpos : 0 < dist1dF dists idx hd := hpos hd hmem2 hhd
        have hmemt : idx ∈ t := by
          rcases List.mem_cons.mp hmem with h | h
          · exact absurd h.symm hhd
          · exact h
        have hle : dist1dF dists idx hd ≤ dist1dF dists idx idx :=
          (List.rel_of_sorted_cons hsorted) idx hmemt
        rw [h0] at hle
        linarith

/-- C9 (amended): in `nearest_neighbors_from_dists` over the distance-sorted,
species-filtered row of the central atom: (a) when `num` is given *and the
central atom itself survives the species filter* (its zero self-distance entry
heads the filtered list), the result is the first `num` entries after
excluding that entry; when the central atom's species is excluded, the code
instead drops the nearest qualifying neighbor (see the counterexample);
(b) when `cutoff` is given, the result is exactly the entries with
`0 < distance < cutoff` that survive the filter; (c) when fewer than `num`
qualifying neighbors exist, fewer are returned and no error is raised. -/
theorem C9_nearest_neighbors (dists : List (List ℚ)) (symbols : List String)
    (idx : ℕ) (skip : Option (List String)) :
    (∀ k : ℕ,
      idx < dists.length →
      dist1dF dists idx idx = 0 →
      (∀ j, j < dists.length → j ≠ idx → 0 < dist1dF dists idx j) →
      keepF symbols skip idx = true →
      nearest_neighbors_from_dists dists symbols idx skip none (some k) =
        Except.ok (specNumSelect dists symbols idx skip k)) ∧
    (∀ (c : ℚ) (j : ℕ),
      j ∈ resNN (nearest_neighbors_from_dists dists symbols idx skip (some c) none) ↔
        (j < dists.length ∧ 0 < dist1dF dists idx j ∧ dist1dF dists idx j < c ∧
          keepF symbols skip j = true)) ∧
    (∀ k : ℕ,
      nearest_neighbors_from_dists dists symbols idx skip none (some k) =
        Except.ok (resNN (nearest_neighbors_from_dists dists symbols idx skip none (some k))) ∧
      (resNN (nearest_neighbors_from_dists dists symbols idx skip none (some k))).length ≤ k) := by
  refine ⟨?_, ?_, ?_⟩
  · intro k hidx h0 hpos hkeep
    obtain ⟨t, hsort, hnt⟩ := argsortD_head dists idx hidx h0 hpos
    unfold nearest_neighbors_from_dists specNumSelect
    rw [if_neg (by simp)]
    simp only [hsort]
    rw [List.filter_cons_of_pos hkeep]
    congr 1
    rw [List.drop_one, List.tail_cons]
    have hfil : (idx :: t.filter (keepF symbols skip)).filter (fun i => i ≠ idx) =
        (t.filter (keepF symbols skip)).filter (fun i => i ≠ idx) := by
      rw [List.filter_cons_of_neg (by simp)]
    rw [hfil]
    have hself : (t.filter (keepF symbols skip)).filter (fun i => i ≠ idx) =
        t.filter (keepF symbols skip) := by
      apply List.filter_eq_self.mpr
      intro b hb
      have hbt : b ∈ t := List.mem_of_mem_filter hb
      simp only [ne_eq, decide_eq_true_eq]
      intro hc
      subst hc
      exact hnt hbt
    rw [hself]
  · intro c j
    unfold nearest_neighbors_from_dists resNN
    rw [if_neg (by simp)]
    simp only [Except.toOption, Option.getD, List.mem_filter]
    rw [(argsortD_perm dists idx).mem_iff, List.mem_range]
    simp only [Bool.and_eq_true, decide_eq_true_eq]
    tauto
  · intro k
    unfold nearest_neighbors_from_dists resNN
    rw [if_neg (by simp)]
    refine ⟨rfl, ?_⟩
    simp only [Except.toOption, Option.getD]
    exact List.length_take_le k _

/-- C9 witness: the amended statements at a concrete 3-atom instance (central
"O" atom 0 at distances 1 and 2 from two "H" atoms, no species exclusion). -/
theorem C9_nearest_neighbors_witness :
    (nearest_neighbors_from_dists [[0, 1, 2], [1, 0, 3], [2, 3, 0]] ["O", "H", "H"] 0
        none none (some 1) =
      Except.ok (specNumSelect [[0, 1, 2], [1, 0, 3], [2, 3, 0]] ["O", "H", "H"] 0 none 1)) ∧
    ((1 : ℕ) ∈ resNN (nearest_neighbors_from_dists [[0, 1, 2], [1, 0, 3], [2, 3, 0]]
        ["O", "H", "H"] 0 none (some (3/2)) none) ↔
      (1 < ([[0, 1, 2], [1, 0, 3], [2, 3, 0]] : List (List ℚ)).length ∧
        0 < dist1dF [[0, 1, 2], [1, 0, 3], [2, 3, 0]] 0 1 ∧
        dist1dF [[0, 1, 2], [1, 0, 3], [2, 3, 0]] 0 1 < 3/2 ∧
        keepF ["O", "H", "H"] none 1 = true)) ∧
    (nearest_neighbors_from_dists [[0, 1, 2], [1, 0, 3], [2, 3, 0]] ["O", "H", "H"] 0
        none none (some 5) =
      Except.ok (resNN (nearest_neighbors_from_dists [[0, 1, 2], [1, 0, 3], [2, 3, 0]]
        ["O", "H", "H"] 0 none none (some 5))) ∧
      (resNN (nearest_neighbors_from_dists [[0, 1, 2], [1, 0, 3], [2, 3, 0]]
        ["O", "H", "H"] 0 none none (some 5))).length ≤ 5) := by
  refine ⟨?_, ?_, ?_⟩
  · apply (C9_nearest_neighbors [[0, 1, 2], [1, 0, 3], [2, 3, 0]] ["O", "H", "H"] 0 none).1 1
    · norm_num
    · norm_num [dist1dF]
    · intro j hj hj0
      have hj3 : j < 3 := by simpa using hj
      interval_cases j <;>
        first
          | exact absurd rfl hj0
          | norm_num [dist1dF]
    · rfl
  · exact (C9_nearest_neighbors [[0, 1, 2], [1, 0, 3], [2, 3, 0]] ["O", "H", "H"] 0 none).2.1
      (3/2) 1
  · exact (C9_nearest_neighbors [[0, 1, 2], [1, 0, 3], [2, 3, 0]] ["O", "H", "H"] 0 none).2.2 5

/-- C9 counterexample to the claim as stated: when the central atom's own
species is excluded (`skip = ["O"]`, central atom 0 is "O"), the code drops
the first entry of the *filtered* sorted list — the nearest qualifying
neighbor (atom 1) — and returns atom 2, while the claim's "first `num` entries
after excluding the zero self-distance entry" is atom 1. -/
theorem C9_counterexample :
    nearest_neighbors_from_dists [[0, 1, 2], [1, 0, 3], [2, 3, 0]] ["O", "H", "H"] 0
        (some ["O"]) none (some 1) = Except.ok [2] ∧
    specNumSelect [[0, 1, 2], [1, 0, 3], [2, 3, 0]] ["O", "H", "H"] 0 (some ["O"]) 1 = [1] ∧
    (Except.ok [2] : Except NNError (List ℕ)) ≠ Except.ok [1] := by
  have h1 : ("H" : String) = "O" ↔ False := by
    simp only [iff_false]
    decide
  refine ⟨?_, ?_, by simp⟩
  · norm_num [nearest_neighbors_from_dists, argsortD, dist1dF, keepF, List.range_succ,
      List.filter_cons, List.filter_nil, h1]
  · norm_num [specNumSelect, argsortD, dist1dF, keepF, List.range_succ,
      List.filter_cons, List.filter_nil, h1]

/-- C7: for valid crystallographic constants (positive lengths, angles in
(0°,180°), non-negative radicand `c² − cy² − cx²`), converting constants to a
lattice and back is the identity — exactly, hence in particular within any
floating tolerance. -/
theorem C7_cc_roundtrip (cc : CrystConst)
    (ha : 0 < cc.a) (hb : 0 < cc.b) (hc : 0 < cc.c)
    (hal1 : 0 < cc.alpha) (hal2 : cc.alpha < 180)
    (hbe1 : 0 < cc.beta) (hbe2 : cc.beta < 180)
    (hga1 : 0 < cc.gamma) (hga2 : cc.gamma < 180)
    (hrad : 0 ≤ cc.c ^ 2 -
      (cc.c * (Real.cos (cc.alpha * Real.pi / 180) -
        Real.cos (cc.beta * Real.pi / 180) * Real.cos (cc.gamma * Real.pi / 180)) /
        Real.sin (cc.gamma * Real.pi / 180)) ^ 2 -
      (cc.c * Real.cos (cc.beta * Real.pi / 180)) ^ 2) :
    cell2cc (cc2cell cc) = cc := by
  have hpi : (0 : ℝ) < Real.pi := Real.pi_pos
  set ar := cc.alpha * Real.pi / 180 with har
  set br := cc.beta * Real.pi / 180 with hbr
  set gr := cc.gamma * Real.pi / 180 with hgr
  have har0 : 0 ≤ ar := by rw [har]; positivity
  have harpi : ar ≤ Real.pi := by
    rw [har]
    calc cc.alpha * Real.pi / 180 ≤ 180 * Real.pi / 180 := by
          apply div_le_div_of_nonneg_right ?_ (by norm_num)
          exact mul_le_mul_of_nonneg_right hal2.le hpi.le
      _ = Real.pi := by ring
  have hbr0 : 0 ≤ br := by rw [hbr]; positivity
  have hbrpi : br ≤ Real.pi := by
    rw [hbr]
    calc cc.beta * Real.pi / 180 ≤ 180 * Real.pi / 180 := by
          apply div_le_div_of_nonneg_right ?_ (by norm_num)
          exact mul_le_mul_of_nonneg_right hbe2.le hpi.le
      _ = Real.pi := by ring
  have hgr0 : 0 < gr := by rw [hgr]; positivity
  have hgrpi : gr < Real.pi := by
    rw [hgr]
    calc cc.gamma * Real.pi / 180 < 180 * Real.pi / 180 := by
          apply div_lt_div_of_pos_right ?_ (by norm_num)
          exact mul_lt_mul_of_pos_right hga2 hpi
      _ = Real.pi := by ring
  have hsg : 0 < Real.sin gr := Real.sin_pos_of_pos_of_lt_pi hgr0 hgrpi
  set cx := cc.c * Real.cos br with hcx
  set cy := cc.c * (Real.cos ar - Real.cos br * Real.cos gr) / Real.sin gr with hcy
  set cz := Real.sqrt (cc.c ^ 2 - cy ^ 2 - cx ^ 2) with hcz
  have hcz2 : cz ^ 2 = cc.c ^ 2 - cy ^ 2 - cx ^ 2 := Real.sq_sqrt hrad
  have hcell : cc2cell cc =
      (⟨⟨cc.a, 0, 0⟩, ⟨cc.b * Real.cos gr, cc.b * Real.sin gr, 0⟩,
        ⟨cx, cy, cz⟩⟩ : Mat3 ℝ) := by
    rw [cc2cell]
  have hna : Real.sqrt (Vec3.normSq (⟨cc.a, 0, 0⟩ : Vec3 ℝ)) = cc.a := by
    simp only [Vec3.normSq]
    rw [show cc.a * cc.a + 0 * 0 + 0 * 0 = cc.a ^ 2 by ring]
    exact Real.sqrt_sq ha.le
  have hnb : Real.sqrt (Vec3.normSq (⟨cc.b * Real.cos gr, cc.b * Real.sin gr, 0⟩ : Vec3 ℝ)) =
      cc.b := by
    simp only [Vec3.normSq]
    have hpyth : Real.cos gr ^ 2 + Real.sin gr ^ 2 = 1 := Real.cos_sq_add_sin_sq gr
    rw [show cc.b * Real.cos gr * (cc.b * Real.cos gr) +
        cc.b * Real.sin gr * (cc.b * Real.sin gr) + 0 * 0 =
        cc.b ^ 2 * (Real.cos gr ^ 2 + Real.sin gr ^ 2) by ring, hpyth, mul_one]
    exact Real.sqrt_sq hb.le
  have hnc : Real.sqrt (Vec3.normSq (⟨cx, cy, cz⟩ : Vec3 ℝ)) = cc.c := by
    simp only [Vec3.normSq]
    rw [show cx * cx + cy * cy + cz * cz = cz ^ 2 + cy ^ 2 + cx ^ 2 by ring, hcz2]
    rw [show cc.c ^ 2 - cy ^ 2 - cx ^ 2 + cy ^ 2 + cx ^ 2 = cc.c ^ 2 by ring]
    exact Real.sqrt_sq hc.le
  have hga : angleDeg (⟨cc.a, 0, 0⟩ : Vec3 ℝ) ⟨cc.b * Real.cos gr, cc.b * Real.sin gr, 0⟩ =
      cc.gamma := by
    unfold angleDeg
    rw [hna, hnb]
    simp only [Vec3.dot]
    rw [show cc.a * (cc.b * Real.cos gr) + 0 * (cc.b * Real.sin gr) + 0 * 0 =
        cc.a * cc.b * Real.cos gr by ring]
    rw [show cc.a * cc.b * Real.cos gr / cc.a / cc.b = Real.cos gr by
      field_simp]
    rw [Real.arccos_cos hgr0.le hgrpi.le, hgr]
    field_simp
  have hbe : angleDeg (⟨cc.a, 0, 0⟩ : Vec3 ℝ) ⟨cx, cy, cz⟩ = cc.beta := by
    unfold angleDeg
    rw [hna, hnc]
    simp only [Vec3.dot]
    rw [show cc.a * cx + 0 * cy + 0 * cz = cc.a * cc.c * Real.cos br by rw [hcx]; ring]
    rw [show cc.a * cc.c * Real.cos br / cc.a / cc.c = Real.cos br by
      field_simp]
    rw [Real.arccos_cos hbr0 hbrpi, hbr]
    field_simp
  have hal : angleDeg (⟨cc.b * Real.cos gr, cc.b * Real.sin gr, 0⟩ : Vec3 ℝ) ⟨cx, cy, cz⟩ =
      cc.alpha := by
    unfold angleDeg
    rw [hnb, hnc]
    simp only [Vec3.dot]
    have hdot : cc.b * Real.cos gr * cx + cc.b * Real.sin gr * cy + 0 * cz =
        cc.b * cc.c * Real.cos ar := by
      rw [hcx, hcy]
      field_simp
      ring
    rw [hdot]
    rw [show cc.b * cc.c * Real.cos ar / cc.b / cc.c = Real.cos ar by
      field_simp]
    rw [Real.arccos_cos har0 harpi, har]
    field_simp
  cases cc
  rw [hcell]
  simp only [cell2cc, CrystConst.mk.injEq]
  exact ⟨hna, hnb, hnc, hal, hbe, hga⟩

/-- C7 witness: the round trip at the cubic constants (1,1,1,90°,90°,90°). -/
theorem C7_cc_roundtrip_witness :
    cell2cc (cc2cell ⟨1, 1, 1, 90, 90, 90⟩) = ⟨1, 1, 1, 90, 90, 90⟩ := by
  apply C7_cc_roundtrip <;> try norm_num
  have h90 : (90 : ℝ) * Real.pi / 180 = Real.pi / 2 := by ring
  simp only [h90, Real.cos_pi_div_two, Real.sin_pi_div_two]
  norm_num
